import Mathlib

/-!
Verification of the weave dialogue-script runtime (crate `bobbin_runtime`):
a shallow embedding of the scanner, parser, resolver, bytecode compiler,
stack VM and runtime facade, with theorems about the pipeline.

Modelling conventions:
* Source text is a `List Char`; positions count characters (the scripts in
  question are ASCII, where this agrees with the crate's byte offsets).
* Rust's `f64` number payload is modelled as `ℚ` (exact rationals).
  `n.fract() == 0.0` becomes `q.den = 1`, and the `as i64` cast keeps its
  saturating behaviour.  NaN, infinities, negative zero and the binary
  rounding of decimal literals are not representable in this model, and
  Rust's default float `Display` is not modelled (see `to_string_value`).
* Rust `HashMap`s are association lists; insertion conses at the front so
  that lookup sees the newest binding, matching `HashMap` overwrite.
* Panics (`expect`, out-of-bounds indexing) and fuel exhaustion of loops
  are explicit `Option`/outcome constructors.
-/

namespace Bobbin

/-- Half-open character range into the source (`Span` in token.rs; `end` is
renamed `stop` because `end` is a Lean keyword). -/
structure Span where
  start : Nat
  stop : Nat
deriving DecidableEq, Repr

/-- Runtime value (`Value` in chunk.rs); the `f64` payload is modelled as `ℚ`. -/
inductive Value where
  | string (s : String)
  | number (n : ℚ)
  | bool (b : Bool)
deriving DecidableEq, Repr

/-- Saturating `f64 as i64` cast on the rational model (Rust float-to-int
casts saturate at the target type's bounds). -/
def i64_sat (n : ℤ) : ℤ := max (-(2 ^ 63)) (min (2 ^ 63 - 1) n)

/-- Rendering of a non-integer number.  The crate uses Rust's default `f64`
`Display` here; that algorithm (shortest round-tripping decimal) is not
modelled — no theorem below depends on this branch. -/
def rat_display (q : ℚ) : String := toString q.num ++ "/" ++ toString q.den

/-- `Value::to_string_value` (chunk.rs): integers format without a decimal
point via `*n as i64`, booleans as `true`/`false`, strings pass through. -/
def Value.to_string_value : Value → String
  | .string s => s
  | .number n => if n.den = 1 then toString (i64_sat n.num) else rat_display n
  | .bool b => if b then "true" else "false"

/-- Bytecode instruction (`Instruction` in chunk.rs). -/
inductive Instruction where
  | Constant (index : Nat)
  | GetLocal (slot : Nat)
  | SetLocal (slot : Nat)
  | Concat (count : Nat)
  | Line
  | ChoiceSet (count : Nat) (targets : List Nat)
  | Jump (target : Nat)
  | InitStorage (name : String)
  | GetStorage (name : String)
  | SetStorage (name : String)
  | GetHost (name : String)
  | Return
deriving DecidableEq, Repr

/-- Compiled bytecode container (`Chunk` in chunk.rs). -/
structure Chunk where
  code : List Instruction
  constants : List Value
  lines : List Nat
deriving DecidableEq, Repr

def Chunk.new : Chunk := ⟨[], [], []⟩

/-- `Chunk::emit`: append an instruction and its line. -/
def Chunk.emit (c : Chunk) (instruction : Instruction) (line : Nat) : Chunk :=
  { c with code := c.code ++ [instruction], lines := c.lines ++ [line] }

/-- `Chunk::add_constant`: append to the pool, return its index. -/
def Chunk.add_constant (c : Chunk) (value : Value) : Chunk × Nat :=
  ({ c with constants := c.constants ++ [value] }, c.constants.length)

/-- `Chunk::current_offset`. -/
def Chunk.current_offset (c : Chunk) : Nat := c.code.length

/-- `Chunk::patch_jump`; `none` models the panic on a non-`Jump` (or
out-of-range) offset. -/
def Chunk.patch_jump (c : Chunk) (offset target : Nat) : Option Chunk :=
  match c.code.get? offset with
  | some (.Jump _) => some { c with code := c.code.set offset (.Jump target) }
  | _ => none

/-- `Chunk::patch_choice_targets`; `none` models the panic on a
non-`ChoiceSet` offset. -/
def Chunk.patch_choice_targets (c : Chunk) (offset : Nat) (new_targets : List Nat) :
    Option Chunk :=
  match c.code.get? offset with
  | some (.ChoiceSet count _) =>
      some { c with code := c.code.set offset (.ChoiceSet count new_targets) }
  | _ => none

/-- The in-memory `VariableStorage` implementation (`MemoryStorage` in
storage.rs), its `HashMap` modelled as an association list. -/
def Storage : Type := List (String × Value)

/-- `MemoryStorage::get`. -/
def Storage.get : Storage → String → Option Value
  | [], _ => none
  | (k, v) :: rest, name => if k = name then some v else Storage.get rest name

/-- `MemoryStorage::contains`. -/
def Storage.contains (st : Storage) (name : String) : Bool :=
  (st.get name).isSome

/-- `MemoryStorage::set`: `HashMap::insert`, i.e. overwrite in place or add. -/
def Storage.set : Storage → String → Value → Storage
  | [], name, value => [(name, value)]
  | (k, v) :: rest, name, value =>
      if k = name then (k, value) :: rest else (k, v) :: Storage.set rest name value

/-- `MemoryStorage::initialize_if_absent`: `entry(..).or_insert(default)`. -/
def Storage.initialize_if_absent (st : Storage) (name : String) (default : Value) :
    Storage :=
  if st.contains name then st else (name, default) :: st

/-- The host oracle (`HostState::lookup`), modelled — like the crate's
`MockHostState` and `EmptyHostState` implementations — as a finite map. -/
def Host : Type := List (String × Value)

/-- `HostState::lookup`. -/
def Host.lookup : Host → String → Option Value
  | [], _ => none
  | (k, v) :: rest, name => if k = name then some v else Host.lookup rest name

/-- Token kinds (`TokenKind` in token.rs).  `Extern` is modelled from the
spec: the src snapshot's token.rs lacks it although the resolver, the error
model and the `GetHost` opcode all support extern variables (the spec's
grammar has `extern-decl := "extern " IDENT NEWLINE`). -/
inductive TokenKind where
  | Temp
  | Save
  | Set
  | Extern
  | Identifier
  | String
  | Number
  | True
  | False
  | Equals
  | OpenBrace
  | CloseBrace
  | TextSegment
  | Choice
  | Indent
  | Dedent
  | NewLine
  | Eof
deriving DecidableEq, Repr

/-- `Token` in token.rs; the lexeme is the character slice of the source. -/
structure Token where
  kind : TokenKind
  lexeme : List Char
  span : Span
deriving DecidableEq, Repr

/-- `LexicalError::Unexpected` (scanner.rs). -/
inductive LexicalError where
  | Unexpected (message : String) (span : Span)
deriving DecidableEq, Repr

/-- Scanner modes (`ScanMode` in scanner.rs). -/
inductive ScanMode where
  | Indentation
  | LineStart
  | Declaration
  | Text
  | Interpolation
deriving DecidableEq, Repr

/-- Scanner state (`Scanner` in scanner.rs), source included.  The extra
field `rest` is the remaining-input view `&source[current..]` that the Rust
scanner re-slices at every peek; it is kept as a field (invariant:
`rest = source.drop current`) so that evaluation shares the suffix. -/
structure Scanner where
  source : List Char
  start : Nat
  current : Nat
  rest : List Char
  line : Nat
  indent_stack : List Nat
  pending_dedents : Nat
  mode : ScanMode
deriving Repr

/-- `Scanner::new`. -/
def Scanner.new (source : List Char) : Scanner :=
  ⟨source, 0, 0, source, 1, [0], 0, .Indentation⟩

def Scanner.is_at_end (s : Scanner) : Bool := s.rest.isEmpty

def Scanner.peek (s : Scanner) : Option Char := s.rest.head?

def Scanner.peek_next (s : Scanner) : Option Char := s.rest.get? 1

def Scanner.peek_at (s : Scanner) (offset : Nat) : Option Char :=
  s.rest.get? offset

def Scanner.is_at_newline (s : Scanner) : Bool :=
  s.peek = some '\n' ∨ s.peek = some '\r'

/-- `Scanner::advance` for one ASCII character. -/
def Scanner.advance (s : Scanner) : Scanner :=
  { s with current := s.current + 1, rest := s.rest.tail }

def Scanner.advance_n (s : Scanner) (n : Nat) : Scanner :=
  { s with current := s.current + n, rest := s.rest.drop n }

/-- `Scanner::check_keyword`. -/
def Scanner.check_keyword (s : Scanner) (keyword : List Char) : Bool :=
  keyword.isPrefixOf s.rest

/-- Count of leading elements satisfying `p`. -/
def count_while {α : Type} (p : α → Bool) : List α → Nat
  | [] => 0
  | c :: rest => if p c then count_while p rest + 1 else 0

/-- `Scanner::skip_spaces` (the while-loop expressed as a count). -/
def Scanner.skip_spaces (s : Scanner) : Scanner :=
  s.advance_n (count_while (fun c => c = ' ') s.rest)

def Scanner.make_token (s : Scanner) (kind : TokenKind) : Token :=
  ⟨kind, (s.source.drop s.start).take (s.current - s.start), ⟨s.start, s.current⟩⟩

def Scanner.error (s : Scanner) (message : String) : LexicalError :=
  .Unexpected message ⟨s.start, s.current⟩

def is_ascii_alpha (c : Char) : Bool :=
  ('a' ≤ c ∧ c ≤ 'z') ∨ ('A' ≤ c ∧ c ≤ 'Z')

def is_ascii_digit (c : Char) : Bool := '0' ≤ c ∧ c ≤ '9'

def is_ascii_alphanumeric (c : Char) : Bool := is_ascii_alpha c ∨ is_ascii_digit c

/-- `Scanner::consume_newline`: consumes `\n` or `\r\n` (or lone `\r`). -/
def Scanner.consume_newline (s : Scanner) : Scanner × Bool :=
  match s.peek with
  | some '\n' => ({ s.advance with line := s.line + 1 }, true)
  | some '\r' =>
      let s := s.advance
      let s := if s.peek = some '\n' then s.advance else s
      ({ s with line := s.line + 1 }, true)
  | _ => (s, false)

/-- One step of the scanner: a token, an error, or fuel exhaustion (`out`
is a model artifact for the Rust loops; it never occurs with enough fuel). -/
inductive ScanStep where
  | tok (t : Token)
  | err (e : LexicalError)
  | out
deriving DecidableEq, Repr

/-- `Scanner::scan_identifier`. -/
def Scanner.scan_identifier (s : Scanner) : Scanner × ScanStep :=
  let n := count_while (fun c => is_ascii_alphanumeric c ∨ c = '_') s.rest
  let s := s.advance_n n
  (s, .tok (s.make_token .Identifier))

/-- Helper for `Scanner::scan_string`: from just after the opening quote,
the number of characters up to and including the closing quote, or the
error message and the characters consumed before failing. -/
def scan_string_chars : List Char → Except (String × Nat) Nat
  | [] => .error ("Unterminated string - reached end of file", 0)
  | c :: rest =>
    if c = '"' then .ok 1
    else if c = '\\' then
      match rest with
      | [] => .error ("Unterminated string - reached end of file", 1)
      | _ :: rest2 =>
          match scan_string_chars rest2 with
          | .ok n => .ok (n + 2)
          | .error (m, n) => .error (m, n + 2)
    else if c = '\n' ∨ c = '\r' then
      .error ("Unterminated string - newline in string literal", 0)
    else
      match scan_string_chars rest with
      | .ok n => .ok (n + 1)
      | .error (m, n) => .error (m, n + 1)

/-- `Scanner::scan_string`. -/
def Scanner.scan_string (s : Scanner) : Scanner × ScanStep :=
  let s := s.advance
  match scan_string_chars s.rest with
  | .ok n =>
      let s := s.advance_n n
      (s, .tok (s.make_token .String))
  | .error (m, n) =>
      let s := s.advance_n n
      (s, .err (s.error m))

/-- `Scanner::scan_number`. -/
def Scanner.scan_number (s : Scanner) : Scanner × ScanStep :=
  let s := if s.peek = some '-' then s.advance else s
  let s := s.advance_n (count_while is_ascii_digit s.rest)
  let s :=
    if s.peek = some '.' ∧ s.peek_next.any is_ascii_digit then
      let s := s.advance
      s.advance_n (count_while is_ascii_digit s.rest)
    else s
  (s, .tok (s.make_token .Number))

/-- `Scanner::scan_declaration_content`.  Note the source checks the
identifier branch before the boolean-literal branches, so `true`/`false`
come out as `Identifier` tokens. -/
def Scanner.scan_declaration_content (s : Scanner) : Scanner × ScanStep :=
  let s := s.skip_spaces
  let s := { s with start := s.current }
  if s.is_at_end ∨ s.is_at_newline then
    (s, .err (s.error "Unexpected end of declaration"))
  else
    match s.peek with
    | none => (s, .err (s.error "Unexpected end of declaration"))
    | some c =>
      if is_ascii_alpha c ∨ c = '_' then s.scan_identifier
      else if c = '=' then
        let s := s.advance
        (s, .tok (s.make_token .Equals))
      else if c = '"' then s.scan_string
      else if is_ascii_digit c ∨ (c = '-' ∧ s.peek_next.any is_ascii_digit) then
        s.scan_number
      else if s.check_keyword "true".toList ∧
          ¬ (s.peek_at 4).any (fun d => is_ascii_alphanumeric d ∨ d = '_') then
        let s := s.advance_n 4
        (s, .tok (s.make_token .True))
      else if s.check_keyword "false".toList ∧
          ¬ (s.peek_at 5).any (fun d => is_ascii_alphanumeric d ∨ d = '_') then
        let s := s.advance_n 5
        (s, .tok (s.make_token .False))
      else (s, .err (s.error "Unexpected character in declaration"))

/-- `Scanner::scan_interpolation_content`. -/
def Scanner.scan_interpolation_content (s : Scanner) : Scanner × ScanStep :=
  let s := s.skip_spaces
  let s := { s with start := s.current }
  if s.is_at_end ∨ s.is_at_newline then
    (s, .err (s.error "Unclosed interpolation - expected closing brace"))
  else
    match s.peek with
    | none => (s, .err (s.error "Unclosed interpolation - expected closing brace"))
    | some c =>
      if c = '}' then
        let s := { s.advance with mode := .Text }
        (s, .tok (s.make_token .CloseBrace))
      else if is_ascii_alpha c ∨ c = '_' then s.scan_identifier
      else (s, .err (s.error "Expected identifier in interpolation"))

/-- `Scanner::process_line_start`: skip blank lines, return the leading
space count of the first content line (`none` at EOF).  Fuel bounds the
blank-line loop. -/
def Scanner.process_line_start :
    Nat → Scanner → Scanner × Option (Except LexicalError (Option Nat))
  | 0, s => (s, none)
  | fuel + 1, s =>
    let s := { s with start := s.current }
    let spaces := count_while (fun c => c = ' ') s.rest
    let s := s.advance_n spaces
    match s.consume_newline with
    | (s, true) => Scanner.process_line_start fuel s
    | (s, false) =>
      if s.peek = some '\t' then
        let n := count_while (fun c => ¬ (c = '\n' ∨ c = '\r')) s.rest
        let s := s.advance_n n
        (s, some (.error (s.error "Tabs not allowed in indentation, use spaces")))
      else if s.is_at_end then (s, some (.ok none))
      else (s, some (.ok (some spaces)))

/-- `Scanner::handle_indentation`: emit pending dedents, then compare the
new indentation level with the stack.  Returns `some (tok/err)` when a
token is to be emitted, `some none`… encoded as: the `Option ScanStep` is
`none` when normal scanning should continue. -/
def Scanner.handle_indentation (fuel : Nat) (s : Scanner) :
    Scanner × Option ScanStep :=
  if s.pending_dedents > 0 then
    let s := { s with pending_dedents := s.pending_dedents - 1, start := s.current }
    (s, some (.tok (s.make_token .Dedent)))
  else
    match s.process_line_start fuel with
    | (s, none) => (s, some .out)
    | (s, some (.error e)) => (s, some (.err e))
    | (s, some (.ok none)) =>
      -- EOF reached - emit remaining dedents
      if s.indent_stack.length > 1 then
        let s := { s with indent_stack := s.indent_stack.dropLast }
        let s := { s with pending_dedents := s.indent_stack.length - 1,
                          mode := .LineStart, start := s.current }
        (s, some (.tok (s.make_token .Dedent)))
      else
        ({ s with mode := .LineStart }, none)
    | (s, some (.ok (some spaces))) =>
      let current_indent := s.indent_stack.getLast?.getD 0
      let s := { s with mode := .LineStart, start := s.current }
      if spaces > current_indent then
        let s := { s with indent_stack := s.indent_stack ++ [spaces] }
        (s, some (.tok (s.make_token .Indent)))
      else if spaces < current_indent then
        let popped := count_while (fun level => spaces < level) s.indent_stack.reverse
        let kept := s.indent_stack.take (s.indent_stack.length - popped)
        let s := { s with indent_stack := kept,
                          pending_dedents := s.pending_dedents + popped }
        if s.indent_stack.getLast? ≠ some spaces then
          (s, some (.err (s.error "Inconsistent indentation")))
        else
          let s := { s with pending_dedents := s.pending_dedents - 1 }
          (s, some (.tok (s.make_token .Dedent)))
      else (s, none)

/-- `Scanner::scan_text_content`, except for its tail call back into
`scan_token` (the empty-text case): that case is returned as `none` and
performed by the caller `scan_token`, keeping the recursion structural. -/
def Scanner.scan_text_core (s : Scanner) : Scanner × Option ScanStep :=
  let s := { s with start := s.current }
  if s.is_at_end ∨ s.is_at_newline then
    -- Empty text at end of line - switch back to line start mode and rescan
    ({ s with mode := .LineStart }, none)
  else
    match s.peek with
    | none => ({ s with mode := .LineStart }, none)
    | some c =>
      if c = '{' then
        let s := s.advance
        if s.peek = some '{' then
          let s := s.advance
          (s, some (.tok ⟨.TextSegment, ['{'], ⟨s.start, s.current⟩⟩))
        else
          let s := { s with mode := .Interpolation }
          (s, some (.tok (s.make_token .OpenBrace)))
      else if c = '}' then
        let s := s.advance
        if s.peek = some '}' then
          let s := s.advance
          (s, some (.tok ⟨.TextSegment, ['}'], ⟨s.start, s.current⟩⟩))
        else
          (s, some (.err
            (s.error "Unexpected '\x7d' - use '\x7d\x7d' for literal brace")))
      else
        let n := count_while
          (fun c => ¬ (c = '\n' ∨ c = '\r' ∨ c = '{' ∨ c = '}')) s.rest
        let s := s.advance_n n
        (s, some (.tok (s.make_token .TextSegment)))

/-- `Scanner::scan_line_start`, with the same `none` convention as
`scan_text_core`.  The `extern ` keyword branch is modelled from the spec
(grammar `extern-decl := "extern " IDENT NEWLINE`; keyword recognition
requires the keyword plus one space at line start): the src snapshot's
scanner lacks it. -/
def Scanner.scan_line_start (s : Scanner) : Scanner × Option ScanStep :=
  if s.check_keyword "temp ".toList then
    let s := { s.advance_n 5 with mode := .Declaration }
    (s, some (.tok (s.make_token .Temp)))
  else if s.check_keyword "save ".toList then
    let s := { s.advance_n 5 with mode := .Declaration }
    (s, some (.tok (s.make_token .Save)))
  else if s.check_keyword "set ".toList then
    let s := { s.advance_n 4 with mode := .Declaration }
    (s, some (.tok (s.make_token .Set)))
  else if s.check_keyword "extern ".toList then
    let s := { s.advance_n 7 with mode := .Declaration }
    (s, some (.tok (s.make_token .Extern)))
  else if s.check_keyword "- ".toList then
    let s := { s.advance_n 2 with mode := .Text }
    (s, some (.tok (s.make_token .Choice)))
  else
    (( { s with mode := .Text } : Scanner).scan_text_core)

/-- `Scanner::scan_token`, fuelled (the fuel bounds the blank-line loop and
the empty-text recursion; with fuel at least the remaining source length
plus two it never runs out). -/
def Scanner.scan_token : Nat → Scanner → Scanner × ScanStep
  | 0, s => (s, .out)
  | fuel + 1, s =>
    match (if s.mode = .Indentation then s.handle_indentation (fuel + 1)
           else (s, none)) with
    | (s, some step) => (s, step)
    | (s, none) =>
      let s := { s with start := s.current }
      if s.is_at_end then (s, .tok (s.make_token .Eof))
      else
        match s.consume_newline with
        | (s, true) =>
            let s := { s with mode := .Indentation }
            (s, .tok (s.make_token .NewLine))
        | (s, false) =>
          match s.mode with
          | .Indentation => (s, .out)  -- unreachable: handled above
          | .LineStart =>
            match s.scan_line_start with
            | (s, some step) => (s, step)
            | (s, none) => Scanner.scan_token fuel s
          | .Declaration => s.scan_declaration_content
          | .Text =>
            match s.scan_text_core with
            | (s, some step) => (s, step)
            | (s, none) => Scanner.scan_token fuel s
          | .Interpolation => s.scan_interpolation_content

/-- `Scanner::tokens`: the token stream as a list, errors yielded inline,
stopping before `Eof`.  `none` only on fuel exhaustion. -/
def Scanner.tokens_aux : Nat → Scanner → Option (List (Except LexicalError Token))
  | 0, _ => none
  | fuel + 1, s =>
    match Scanner.scan_token (fuel + 1) s with
    | (_, .out) => none
    | (s', .tok t) =>
        if t.kind = .Eof then some []
        else (Scanner.tokens_aux fuel s').map (fun l => .ok t :: l)
    | (s', .err e) => (Scanner.tokens_aux fuel s').map (fun l => .error e :: l)

/-- Tokenize a source string with the given fuel. -/
def tokenize (source : List Char) (fuel : Nat) :
    Option (List (Except LexicalError Token)) :=
  Scanner.tokens_aux fuel (Scanner.new source)

/-- `NodeId` (ast.rs): dense identifier stamped by the parser. -/
abbrev NodeId := Nat

/-- `Literal` (ast.rs); the `f64` payload is modelled as `ℚ`. -/
inductive Literal where
  | String (s : String)
  | Number (n : ℚ)
  | Bool (b : Bool)
deriving DecidableEq, Repr

/-- `TextPart` (ast.rs). -/
inductive TextPart where
  | Literal (text : String) (span : Span)
  | VarRef (id : NodeId) (name : String) (span : Span)
deriving DecidableEq, Repr

/-- `VarBindingData` (ast.rs). -/
structure VarBindingData where
  id : NodeId
  name : String
  value : Literal
  span : Span
deriving DecidableEq, Repr

mutual
/-- `Stmt` (ast.rs).  `ExternDecl` is present in the repository's ast
(resolver.rs imports `ExternDeclData` and matches `Stmt::ExternDecl`) but
missing from the src snapshot's ast.rs; its fields are modelled from the
spec: `ExternDecl { id, name, span }`. -/
inductive Stmt where
  | Line (parts : List TextPart) (span : Span)
  | TempDecl (data : VarBindingData)
  | SaveDecl (data : VarBindingData)
  | Assignment (data : VarBindingData)
  | ExternDecl (id : NodeId) (name : String) (span : Span)
  | ChoiceSet (choices : List Choice)

/-- `Choice` (ast.rs): choice text plus nested branch body. -/
inductive Choice where
  | mk (parts : List TextPart) (span : Span) (nested : List Stmt)
end

def Choice.parts : Choice → List TextPart
  | .mk parts _ _ => parts

def Choice.span : Choice → Span
  | .mk _ span _ => span

def Choice.nested : Choice → List Stmt
  | .mk _ _ nested => nested

/-- `Script` (ast.rs). -/
structure Script where
  statements : List Stmt

/-- `ParseError` (parser.rs). -/
inductive ParseError where
  | Lexical (e : LexicalError)
  | Syntax (message : String) (span : Span)
deriving DecidableEq, Repr

/-- Parser state (`Parser` in parser.rs): the remaining token stream, the
collected errors (in push order) and the `NodeId` counter. -/
structure Parser where
  tokens : List (Except LexicalError Token)
  errors : List ParseError
  next_id : Nat

def Parser.new (tokens : List (Except LexicalError Token)) : Parser :=
  ⟨tokens, [], 0⟩

/-- `Parser::next_id`. -/
def Parser.fresh_id (p : Parser) : NodeId × Parser :=
  (p.next_id, { p with next_id := p.next_id + 1 })

/-- `Parser::check`. -/
def Parser.check (p : Parser) (kind : TokenKind) : Bool :=
  match p.tokens with
  | .ok t :: _ => t.kind = kind
  | _ => false

/-- `Parser::current_span`. -/
def Parser.current_span (p : Parser) : Span :=
  match p.tokens with
  | .ok t :: _ => t.span
  | _ => ⟨0, 0⟩

/-- `Parser::advance`; `none` models the `unwrap` panics (the callers have
checked the next token). -/
def Parser.advance (p : Parser) : Option (Token × Parser) :=
  match p.tokens with
  | .ok t :: rest => some (t, { p with tokens := rest })
  | _ => none

def Parser.push_error (p : Parser) (e : ParseError) : Parser :=
  { p with errors := p.errors ++ [e] }

/-- `Parser::synchronize`: consume up to and including the next `NewLine`
(or up to `Eof`/end), wrapping popped lexical errors. -/
def Parser.synchronize : Nat → Parser → Option Parser
  | 0, _ => none
  | fuel + 1, p =>
    match p.tokens with
    | [] => some p
    | .error e :: rest =>
        Parser.synchronize fuel
          { p with tokens := rest, errors := p.errors ++ [.Lexical e] }
    | .ok t :: rest =>
      match t.kind with
      | .NewLine => some { p with tokens := rest }
      | .Eof => some p
      | _ => Parser.synchronize fuel { p with tokens := rest }

/-- `unescape_string` (parser.rs). -/
def unescape_string : List Char → List Char
  | [] => []
  | '\\' :: rest =>
    match rest with
    | [] => ['\\']
    | 'n' :: r => '\n' :: unescape_string r
    | 't' :: r => '\t' :: unescape_string r
    | 'r' :: r => '\r' :: unescape_string r
    | '"' :: r => '"' :: unescape_string r
    | '\\' :: r => '\\' :: unescape_string r
    | other :: r => '\\' :: other :: unescape_string r
  | c :: rest => c :: unescape_string rest

/-- Value of a digit string. -/
def digits_val : List Char → Nat
  | [] => 0
  | c :: rest => digits_val rest + c.toNat.sub 48 * 10 ^ rest.length

/-- `lexeme.parse::<f64>().unwrap_or(0.0)` on the shapes the scanner's
`scan_number` produces (`[-]digits[.digits]`), as an exact rational (the
binary rounding of `f64` parsing is not modelled). -/
def parse_f64 (cs : List Char) : ℚ :=
  let nonneg : List Char → ℚ := fun cs =>
    let ip := cs.takeWhile is_ascii_digit
    let rest := cs.dropWhile is_ascii_digit
    match rest with
    | '.' :: frac =>
        let fd := frac.takeWhile is_ascii_digit
        (digits_val ip : ℚ) + (digits_val fd : ℚ) / ((10 : ℚ) ^ fd.length)
    | _ => (digits_val ip : ℚ)
  match cs with
  | '-' :: rest => -(nonneg rest)
  | _ => nonneg cs

/-- `Parser::parse_literal`. -/
def Parser.parse_literal (p : Parser) : Option ((Literal × Nat) × Parser) :=
  match p.tokens with
  | .ok t :: _ =>
    match t.kind with
    | .String => do
        let (token, p) ← p.advance
        let s := token.lexeme
        let unquoted :=
          if 2 ≤ s.length then String.mk (unescape_string ((s.drop 1).dropLast))
          else ""
        return ((.String unquoted, token.span.stop), p)
    | .Number => do
        let (token, p) ← p.advance
        return ((.Number (parse_f64 token.lexeme), token.span.stop), p)
    | .True => do
        let (token, p) ← p.advance
        return ((.Bool true, token.span.stop), p)
    | .False => do
        let (token, p) ← p.advance
        return ((.Bool false, token.span.stop), p)
    | _ =>
        let p := p.push_error (.Syntax "Expected literal value" t.span)
        some ((.Bool false, t.span.stop), p)
  | _ =>
      let p := p.push_error (.Syntax "Expected literal value" ⟨0, 0⟩)
      some ((.Bool false, 0), p)

/-- `Parser::parse_var_binding`. -/
def Parser.parse_var_binding (fuel : Nat) (p : Parser) (keyword : String)
    (start : Nat) : Option (VarBindingData × Parser) :=
  let (id, p) := p.fresh_id
  if p.check .Identifier then do
    let (token, p) ← p.advance
    let name := String.mk token.lexeme
    if p.check .Equals then do
      let (_, p) ← p.advance
      let ((value, stop), p) ← p.parse_literal
      return (⟨id, name, value, ⟨start, stop⟩⟩, p)
    else do
      let span := p.current_span
      let p := p.push_error
        (.Syntax ("Expected '=' in " ++ keyword ++ " statement") span)
      let p ← Parser.synchronize fuel p
      return (⟨id, name, .Bool false, ⟨start, start⟩⟩, p)
  else do
    let span := p.current_span
    let p := p.push_error
      (.Syntax ("Expected identifier after '" ++ keyword ++ "'") span)
    let p ← Parser.synchronize fuel p
    return (⟨id, "", .Bool false, ⟨start, start⟩⟩, p)

/-- `Parser::temp_declaration`. -/
def Parser.temp_declaration (fuel : Nat) (p : Parser) : Option (Stmt × Parser) := do
  let (start_token, p) ← p.advance
  let (data, p) ← p.parse_var_binding fuel "temp" start_token.span.start
  return (.TempDecl data, p)

/-- `Parser::save_declaration`. -/
def Parser.save_declaration (fuel : Nat) (p : Parser) : Option (Stmt × Parser) := do
  let (start_token, p) ← p.advance
  let (data, p) ← p.parse_var_binding fuel "save" start_token.span.start
  return (.SaveDecl data, p)

/-- `Parser::assignment`. -/
def Parser.assignment (fuel : Nat) (p : Parser) : Option (Stmt × Parser) := do
  let (start_token, p) ← p.advance
  let (data, p) ← p.parse_var_binding fuel "set" start_token.span.start
  return (.Assignment data, p)

/-- Modelled from the spec: the extern declaration parse
(`extern-decl := "extern " IDENT NEWLINE`; a variable form with no value,
stamping a fresh `NodeId`).  Missing from the src snapshot's parser; the
error path mirrors `parse_var_binding`'s missing-identifier path. -/
def Parser.extern_declaration (fuel : Nat) (p : Parser) : Option (Stmt × Parser) := do
  let (start_token, p) ← p.advance
  let start := start_token.span.start
  let (id, p) := p.fresh_id
  if p.check .Identifier then do
    let (token, p) ← p.advance
    return (.ExternDecl id (String.mk token.lexeme) ⟨start, token.span.stop⟩, p)
  else do
    let span := p.current_span
    let p := p.push_error (.Syntax "Expected identifier after 'extern'" span)
    let p ← Parser.synchronize fuel p
    return (.ExternDecl id "" ⟨start, start⟩, p)

/-- The loop of `Parser::parse_text_parts`, carrying the accumulated parts
and the span bounds. -/
def Parser.parse_text_parts_aux :
    Nat → Parser → List TextPart → Option Nat → Nat →
    Option ((List TextPart × Span) × Parser)
  | 0, _, _, _, _ => none
  | fuel + 1, p, parts, start, stop =>
    match p.tokens with
    | .ok t :: _ =>
      match t.kind with
      | .TextSegment => do
          let (token, p) ← p.advance
          let start := if start.isNone then some token.span.start else start
          Parser.parse_text_parts_aux fuel p
            (parts ++ [.Literal (String.mk token.lexeme) token.span])
            start token.span.stop
      | .OpenBrace => do
          let (openTok, p) ← p.advance
          let start := if start.isNone then some openTok.span.start else start
          match p.tokens with
          | .ok t :: _ =>
            if t.kind = .Identifier then do
              let (idTok, p) ← p.advance
              let var_name := String.mk idTok.lexeme
              match p.tokens with
              | .ok t2 :: _ =>
                if t2.kind = .CloseBrace then do
                  let (closeTok, p) ← p.advance
                  let (id, p) := p.fresh_id
                  Parser.parse_text_parts_aux fuel p
                    (parts ++ [.VarRef id var_name
                      ⟨openTok.span.start, closeTok.span.stop⟩])
                    start closeTok.span.stop
                else
                  let p := p.push_error
                    (.Syntax "Expected '\x7d' after variable name" idTok.span)
                  Parser.parse_text_parts_aux fuel p parts start idTok.span.stop
              | _ =>
                  let p := p.push_error
                    (.Syntax "Expected '\x7d' after variable name" idTok.span)
                  Parser.parse_text_parts_aux fuel p parts start idTok.span.stop
            else
              let p := p.push_error
                (.Syntax "Expected variable name after '\x7b'" openTok.span)
              Parser.parse_text_parts_aux fuel p parts start openTok.span.stop
          | _ =>
              let p := p.push_error
                (.Syntax "Expected variable name after '\x7b'" openTok.span)
              Parser.parse_text_parts_aux fuel p parts start openTok.span.stop
      | .NewLine => some ((parts, ⟨start.getD 0, stop⟩), p)
      | .Eof => some ((parts, ⟨start.getD 0, stop⟩), p)
      | .Dedent => some ((parts, ⟨start.getD 0, stop⟩), p)
      | _ => some ((parts, ⟨start.getD 0, stop⟩), p)
    | .error e :: rest =>
        let p := { p with tokens := rest, errors := p.errors ++ [.Lexical e] }
        some ((parts, ⟨start.getD 0, stop⟩), p)
    | [] => some ((parts, ⟨start.getD 0, stop⟩), p)

/-- `Parser::parse_text_parts`. -/
def Parser.parse_text_parts (fuel : Nat) (p : Parser) :
    Option ((List TextPart × Span) × Parser) :=
  Parser.parse_text_parts_aux fuel p [] none 0

/-- `Parser::line_statement`. -/
def Parser.line_statement (fuel : Nat) (p : Parser) : Option (Stmt × Parser) := do
  let ((parts, span), p) ← p.parse_text_parts fuel
  return (.Line parts span, p)

/-- The Debug name of a token kind (for the `Unexpected token: {:?}`
message). -/
def tokenKindName : TokenKind → String
  | .Temp => "Temp"
  | .Save => "Save"
  | .Set => "Set"
  | .Extern => "Extern"
  | .Identifier => "Identifier"
  | .String => "String"
  | .Number => "Number"
  | .True => "True"
  | .False => "False"
  | .Equals => "Equals"
  | .OpenBrace => "OpenBrace"
  | .CloseBrace => "CloseBrace"
  | .TextSegment => "TextSegment"
  | .Choice => "Choice"
  | .Indent => "Indent"
  | .Dedent => "Dedent"
  | .NewLine => "NewLine"
  | .Eof => "Eof"

/-- The parser's mutually recursive loops (`parse`, `try_parse_statement`,
`choice_set`, `parse_nested_content`), combined into one fuelled dispatcher
so that the recursion is structural on the fuel (Rust's mutual recursion,
job by job). -/
inductive PJob where
  | tryStmt
  | choiceLoop (acc : List Choice)
  | nested
  | nestedLoop (acc : List Stmt)
  | topLoop (acc : List Stmt)

/-- Result of one parser job. -/
inductive PRes where
  | stmt (s : Option Stmt)
  | choices (cs : List Choice)
  | stmts (l : List Stmt)

/-- The fuelled dispatcher; see `PJob`. -/
def Parser.go : Nat → PJob → Parser → Option (PRes × Parser)
  | 0, _, _ => none
  | fuel + 1, .tryStmt, p =>
    -- `Parser::try_parse_statement`.  The `Extern` dispatch is modelled
    -- from the spec (`Temp, Save, Extern, Set → variable form`).
    (match p.tokens with
     | .ok t :: _ =>
       match t.kind with
       | .Temp => do
           let (stmt, p) ← p.temp_declaration (fuel + 1)
           return (.stmt (some stmt), p)
       | .Save => do
           let (stmt, p) ← p.save_declaration (fuel + 1)
           return (.stmt (some stmt), p)
       | .Set => do
           let (stmt, p) ← p.assignment (fuel + 1)
           return (.stmt (some stmt), p)
       | .Extern => do
           let (stmt, p) ← p.extern_declaration (fuel + 1)
           return (.stmt (some stmt), p)
       | .TextSegment => do
           let (stmt, p) ← p.line_statement (fuel + 1)
           return (.stmt (some stmt), p)
       | .OpenBrace => do
           let (stmt, p) ← p.line_statement (fuel + 1)
           return (.stmt (some stmt), p)
       | .Choice => do
           let (res, p) ← Parser.go fuel (.choiceLoop []) p
           match res with
           | .choices cs => return (.stmt (some (.ChoiceSet cs)), p)
           | _ => none
       | _ => some (.stmt none, p)
     | _ => some (.stmt none, p))
  | fuel + 1, .choiceLoop acc, p => do
    -- one iteration of the `Parser::choice_set` loop
    let (choice_token, p) ← p.advance
    let start := choice_token.span.start
    let ((parts, text_span), p) ← p.parse_text_parts (fuel + 1)
    let stop := if text_span.stop > 0 then text_span.stop else choice_token.span.stop
    if ¬ (p.check .NewLine) then do
      let p := p.push_error (.Syntax "Expected newline after choice" ⟨start, stop⟩)
      let p ← Parser.synchronize (fuel + 1) p
      return (.choices acc, p)
    else do
      let (_, p) ← p.advance
      let (res, p) ← Parser.go fuel .nested p
      match res with
      | .stmts nested =>
        let acc := acc ++ [Choice.mk parts ⟨start, stop⟩ nested]
        if p.check .Choice then Parser.go fuel (.choiceLoop acc) p
        else return (.choices acc, p)
      | _ => none
  | fuel + 1, .nested, p =>
    -- `Parser::parse_nested_content`
    if ¬ (p.check .Indent) then some (.stmts [], p)
    else do
      let (_, p) ← p.advance
      Parser.go fuel (.nestedLoop []) p
  | fuel + 1, .nestedLoop acc, p =>
    (match p.tokens with
     | .error e :: rest => do
         let p := { p with tokens := rest, errors := p.errors ++ [.Lexical e] }
         let p ← Parser.synchronize (fuel + 1) p
         Parser.go fuel (.nestedLoop acc) p
     | _ => do
       let (res, p) ← Parser.go fuel .tryStmt p
       match res with
       | .stmt (some stmt) => Parser.go fuel (.nestedLoop (acc ++ [stmt])) p
       | .stmt none =>
         (match p.tokens with
          | [] => some (.stmts acc, p)
          | .ok t :: rest =>
            match t.kind with
            | .Dedent => some (.stmts acc, { p with tokens := rest })
            | .NewLine => Parser.go fuel (.nestedLoop acc) { p with tokens := rest }
            | .Indent => Parser.go fuel (.nestedLoop acc) { p with tokens := rest }
            | .Eof => some (.stmts acc, p)
            | _ => Parser.go fuel (.nestedLoop acc) { p with tokens := rest }
          | .error _ :: _ => none)  -- unreachable: handled above
       | _ => none)
  | fuel + 1, .topLoop acc, p =>
    -- the `Parser::parse` loop
    (match p.tokens with
     | .error e :: rest => do
         let p := { p with tokens := rest, errors := p.errors ++ [.Lexical e] }
         let p ← Parser.synchronize (fuel + 1) p
         Parser.go fuel (.topLoop acc) p
     | _ => do
       let (res, p) ← Parser.go fuel .tryStmt p
       match res with
       | .stmt (some stmt) => Parser.go fuel (.topLoop (acc ++ [stmt])) p
       | .stmt none =>
         (match p.tokens with
          | [] => some (.stmts acc, p)
          | .ok t :: rest =>
            match t.kind with
            | .NewLine => Parser.go fuel (.topLoop acc) { p with tokens := rest }
            | .Indent => Parser.go fuel (.topLoop acc) { p with tokens := rest }
            | .Dedent => Parser.go fuel (.topLoop acc) { p with tokens := rest }
            | .Eof => some (.stmts acc, p)
            | _ =>
              let p := p.push_error
                (.Syntax ("Unexpected token: " ++ tokenKindName t.kind) t.span)
              Parser.go fuel (.topLoop acc) { p with tokens := p.tokens.tail }
          | .error _ :: _ => none)  -- unreachable: handled above
       | _ => none)

/-- `Parser::parse`: all statements, then the error list if non-empty. -/
def Parser.parse (fuel : Nat) (p : Parser) :
    Option (Except (List ParseError) Script) := do
  let (res, p) ← Parser.go fuel (.topLoop []) p
  match res with
  | .stmts statements =>
      if p.errors.isEmpty then return .ok ⟨statements⟩
      else return .error p.errors
  | _ => none

/-- `SemanticError` (resolver.rs). -/
inductive SemanticError where
  | UndefinedVariable (name : String) (span : Span)
  | Shadowing (name : String) (span : Span) (original : Span)
  | AssignmentToExtern (name : String) (span : Span)
deriving DecidableEq, Repr

/-- Association-list lookup (the `HashMap` model: first hit is the newest). -/
def alist_lookup {κ α : Type} [DecidableEq κ] : List (κ × α) → κ → Option α
  | [], _ => none
  | (k, v) :: rest, key => if k = key then some v else alist_lookup rest key

/-- `SymbolTable` (resolver.rs). -/
structure SymbolTable where
  bindings : List (NodeId × Nat)
  save_bindings : List (NodeId × String)
  extern_bindings : List (NodeId × String)
deriving DecidableEq, Repr

/-- `VarInfo` (resolver.rs). -/
structure VarInfo where
  slot : Nat
  span : Span
deriving DecidableEq, Repr

/-- `Scope` (resolver.rs); its `variables` field is named `vars` here
because `variables` is a Lean keyword. -/
structure RScope where
  vars : List (String × VarInfo)
  start_slot : Nat
deriving DecidableEq, Repr

/-- `Resolver` (resolver.rs).  `scopes` keeps the innermost scope FIRST
(Rust pushes/pops at the `Vec`'s end); `save_vars`/`extern_vars` map each
file-global name to its declaration span. -/
structure Resolver where
  scopes : List RScope
  save_vars : List (String × Span)
  extern_vars : List (String × Span)
  next_slot : Nat
  bindings : List (NodeId × Nat)
  save_bindings : List (NodeId × String)
  extern_bindings : List (NodeId × String)
  errors : List SemanticError
deriving DecidableEq, Repr

/-- `Resolver::new` (modulo the AST reference, passed to `analyze` here). -/
def Resolver.mk0 : Resolver :=
  ⟨[⟨[], 0⟩], [], [], 0, [], [], [], []⟩

def Resolver.push_error (r : Resolver) (e : SemanticError) : Resolver :=
  { r with errors := r.errors ++ [e] }

/-- `Resolver::push_scope`. -/
def Resolver.push_scope (r : Resolver) : Resolver :=
  { r with scopes := ⟨[], r.next_slot⟩ :: r.scopes }

/-- `Resolver::pop_scope`: reclaim the scope's slots. -/
def Resolver.pop_scope (r : Resolver) : Resolver :=
  match r.scopes with
  | [] => r
  | scope :: rest => { r with scopes := rest, next_slot := scope.start_slot }

/-- Innermost-to-outermost search of the temp scopes. -/
def scopes_find : List RScope → String → Option VarInfo
  | [], _ => none
  | scope :: rest, name =>
    match alist_lookup scope.vars name with
    | some vi => some vi
    | none => scopes_find rest name

/-- `Resolver::declare_temp`. -/
def Resolver.declare_temp (r : Resolver) (id : NodeId) (name : String)
    (span : Span) : Resolver :=
  match alist_lookup r.save_vars name with
  | some original => r.push_error (.Shadowing name span original)
  | none =>
  match alist_lookup r.extern_vars name with
  | some original => r.push_error (.Shadowing name span original)
  | none =>
  -- check for shadowing in the outer scopes
  match scopes_find (r.scopes.drop 1) name with
  | some vi => r.push_error (.Shadowing name span vi.span)
  | none =>
  match r.scopes with
  | [] => r  -- unreachable: the global scope is never popped
  | current :: rest =>
    match alist_lookup current.vars name with
    | some vi => r.push_error (.Shadowing name span vi.span)
    | none =>
      let slot := r.next_slot
      { r with
        next_slot := slot + 1,
        scopes := { current with
          vars := (name, ⟨slot, span⟩) :: current.vars } :: rest,
        bindings := (id, slot) :: r.bindings }

/-- `Resolver::declare_save`. -/
def Resolver.declare_save (r : Resolver) (id : NodeId) (name : String)
    (span : Span) : Resolver :=
  match alist_lookup r.save_vars name with
  | some original => r.push_error (.Shadowing name span original)
  | none =>
  match alist_lookup r.extern_vars name with
  | some original => r.push_error (.Shadowing name span original)
  | none =>
  match scopes_find r.scopes name with
  | some vi => r.push_error (.Shadowing name span vi.span)
  | none =>
    { r with
      save_vars := (name, span) :: r.save_vars,
      save_bindings := (id, name) :: r.save_bindings }

/-- `Resolver::declare_extern` (resolver.rs; note it records no binding for
the declaration itself). -/
def Resolver.declareExtern (r : Resolver) (_id : NodeId) (name : String)
    (span : Span) : Resolver :=
  match alist_lookup r.extern_vars name with
  | some original => r.push_error (.Shadowing name span original)
  | none =>
  match alist_lookup r.save_vars name with
  | some original => r.push_error (.Shadowing name span original)
  | none =>
  match scopes_find r.scopes name with
  | some vi => r.push_error (.Shadowing name span vi.span)
  | none =>
    { r with extern_vars := (name, span) :: r.extern_vars }

/-- `Resolver::resolve_reference`: temps innermost-out, then saves, then
externs; writing an extern is an error. -/
def Resolver.resolve_reference (r : Resolver) (id : NodeId) (name : String)
    (span : Span) (for_write : Bool) : Resolver :=
  match scopes_find r.scopes name with
  | some vi => { r with bindings := (id, vi.slot) :: r.bindings }
  | none =>
    if (alist_lookup r.save_vars name).isSome then
      { r with save_bindings := (id, name) :: r.save_bindings }
    else if (alist_lookup r.extern_vars name).isSome then
      if for_write then r.push_error (.AssignmentToExtern name span)
      else { r with extern_bindings := (id, name) :: r.extern_bindings }
    else r.push_error (.UndefinedVariable name span)

/-- `Resolver::resolve_text_parts`. -/
def Resolver.resolve_text_parts (r : Resolver) : List TextPart → Resolver
  | [] => r
  | .Literal _ _ :: rest => r.resolve_text_parts rest
  | .VarRef id name span :: rest =>
      (r.resolve_reference id name span false).resolve_text_parts rest

/-- The first pass of `resolve_stmt`'s `ChoiceSet` arm: resolve the choice
texts of every choice. -/
def Resolver.resolve_choice_texts (r : Resolver) : List Choice → Resolver
  | [] => r
  | c :: rest => (r.resolve_text_parts c.parts).resolve_choice_texts rest

mutual

/-- `Resolver::resolve_stmt`. -/
def Resolver.resolve_stmt (r : Resolver) (s : Stmt) : Resolver :=
  match s with
  | .TempDecl d => r.declare_temp d.id d.name d.span
  | .SaveDecl d => r.declare_save d.id d.name d.span
  | .ExternDecl id name span => r.declareExtern id name span
  | .Assignment d => r.resolve_reference d.id d.name d.span true
  | .Line parts _ => r.resolve_text_parts parts
  | .ChoiceSet choices =>
      Resolver.resolve_branches (r.resolve_choice_texts choices) choices
termination_by structural s

/-- `Resolver::resolve_choice_branch`, folded over the choices. -/
def Resolver.resolve_branches (r : Resolver) (cs : List Choice) : Resolver :=
  match cs with
  | [] => r
  | .mk _ _ nested :: rest =>
      Resolver.resolve_branches
        (Resolver.pop_scope (Resolver.resolve_stmts (r.push_scope) nested)) rest
termination_by structural cs

/-- The statement fold of `Resolver::analyze` / nested bodies. -/
def Resolver.resolve_stmts (r : Resolver) (l : List Stmt) : Resolver :=
  match l with
  | [] => r
  | s :: rest => Resolver.resolve_stmts (r.resolve_stmt s) rest
termination_by structural l

end

/-- `Resolver::analyze`. -/
def analyze (script : Script) : Except (List SemanticError) SymbolTable :=
  let r := Resolver.resolve_stmts Resolver.mk0 script.statements
  if r.errors.isEmpty then .ok ⟨r.bindings, r.save_bindings, r.extern_bindings⟩
  else .error r.errors

/-- `Compiler::compile_literal`. -/
def compile_literal (c : Chunk) (literal : Literal) (line : Nat) : Chunk :=
  let value : Value :=
    match literal with
    | .String s => .string s
    | .Number n => .number n
    | .Bool b => .bool b
  let (c, index) := c.add_constant value
  c.emit (.Constant index) line

/-- `Compiler::get_slot`; `none` models the `expect` panic. -/
def get_slot (S : SymbolTable) (id : NodeId) : Option Nat :=
  alist_lookup S.bindings id

/-- `Compiler::get_save_name`. -/
def get_save_name (S : SymbolTable) (id : NodeId) : Option String :=
  alist_lookup S.save_bindings id

/-- The extern analogue of `get_save_name`, for the modelled extern branch
of `emit_var_read`. -/
def get_extern_name (S : SymbolTable) (id : NodeId) : Option String :=
  alist_lookup S.extern_bindings id

/-- `Compiler::emit_var_read`.  The extern branch is modelled from the
spec (`lookup finds exactly one of (slot, save name, extern name); emit
GetLocal, GetStorage, or GetHost respectively`): the src snapshot's
compiler lacks it. -/
def emit_var_read (S : SymbolTable) (c : Chunk) (id : NodeId) (line : Nat) :
    Option Chunk :=
  match get_save_name S id with
  | some name => some (c.emit (.GetStorage name) line)
  | none =>
    match get_extern_name S id with
    | some name => some (c.emit (.GetHost name) line)
    | none =>
      match get_slot S id with
      | some slot => some (c.emit (.GetLocal slot) line)
      | none => none

/-- `Compiler::emit_var_write` (writes to an extern are already rejected in
resolution, so there is no extern case). -/
def emit_var_write (S : SymbolTable) (c : Chunk) (id : NodeId) (line : Nat) :
    Option Chunk :=
  match get_save_name S id with
  | some name => some (c.emit (.SetStorage name) line)
  | none =>
    match get_slot S id with
    | some slot => some (c.emit (.SetLocal slot) line)
    | none => none

/-- The emission loop of `Compiler::compile_text_parts`. -/
def compile_parts_fold (S : SymbolTable) (c : Chunk) :
    List TextPart → Option Chunk
  | [] => some c
  | .Literal text span :: rest =>
      let (c, index) := c.add_constant (.string text)
      compile_parts_fold S (c.emit (.Constant index) span.start) rest
  | .VarRef id _ span :: rest => do
      let c ← emit_var_read S c id span.start
      compile_parts_fold S c rest

/-- `Compiler::compile_text_parts`: empty → empty-string constant; a single
literal → its constant; otherwise all parts then `Concat` when more than
one. -/
def compile_text_parts (S : SymbolTable) (c : Chunk) (parts : List TextPart)
    (line : Nat) : Option Chunk :=
  match parts with
  | [] =>
      let (c, index) := c.add_constant (.string "")
      some (c.emit (.Constant index) line)
  | [.Literal text _] =>
      let (c, index) := c.add_constant (.string text)
      some (c.emit (.Constant index) line)
  | _ => do
      let c ← compile_parts_fold S c parts
      if parts.length > 1 then return c.emit (.Concat parts.length) line
      else return c

/-- Step 1 of the `ChoiceSet` lowering: compile every choice's text parts. -/
def compile_choice_texts (S : SymbolTable) (c : Chunk) :
    List Choice → Option Chunk
  | [] => some c
  | choice :: rest => do
      let c ← compile_text_parts S c choice.parts choice.span.start
      compile_choice_texts S c rest

/-- Step 5 of the `ChoiceSet` lowering: patch the remembered jumps to the
gather point. -/
def patch_jumps (c : Chunk) : List Nat → Nat → Option Chunk
  | [], _ => some c
  | offset :: rest, gather => do
      let c ← c.patch_jump offset gather
      patch_jumps c rest gather

mutual

/-- `Compiler::compile_stmt`.  The `ExternDecl` arm is modelled from the
spec (`ExternDecl: emits nothing; it is compile-time-only`). -/
def compile_stmt (S : SymbolTable) (c : Chunk) (s : Stmt) : Option Chunk :=
  match s with
  | .TempDecl d => some (compile_literal c d.value d.span.start)
  | .SaveDecl d =>
      let c := compile_literal c d.value d.span.start
      some (c.emit (.InitStorage d.name) d.span.start)
  | .Assignment d =>
      let c := compile_literal c d.value d.span.start
      emit_var_write S c d.id d.span.start
  | .ExternDecl _ _ _ => some c
  | .Line parts span => do
      let c ← compile_text_parts S c parts span.start
      return c.emit .Line span.start
  | .ChoiceSet choices =>
    match choices with
    | [] => none  -- `choices[0]` panics on an empty choice set
    | c0 :: _ => do
      let count := choices.length
      let line := c0.span.start
      -- 1. compile all choice texts
      let c ← compile_choice_texts S c choices
      -- 2. ChoiceSet with placeholder targets
      let choice_set_offset := c.current_offset
      let c := c.emit (.ChoiceSet count (List.replicate count 0)) line
      -- 3. nested code per choice, collecting start offsets and jumps
      let (c, choice_targets, jump_patches) ← compile_branches S c choices
      -- 4. the gather point
      let gather_point := c.current_offset
      -- 5. patch the jumps to the gather point
      let c ← patch_jumps c jump_patches gather_point
      -- 6. patch the ChoiceSet's targets
      Chunk.patch_choice_targets c choice_set_offset choice_targets
termination_by structural s

/-- Step 3 of the `ChoiceSet` lowering: per choice, record the branch start
offset, compile the nested statements, and emit a placeholder `Jump`. -/
def compile_branches (S : SymbolTable) (c : Chunk) (cs : List Choice) :
    Option (Chunk × List Nat × List Nat) :=
  match cs with
  | [] => some (c, [], [])
  | .mk _ span nested :: rest => do
      let target := c.current_offset
      let c ← compile_stmts S c nested
      let jump_offset := c.current_offset
      let c := c.emit (.Jump 0) span.start
      let (c, ts, js) ← compile_branches S c rest
      return (c, target :: ts, jump_offset :: js)
termination_by structural cs

/-- The statement fold of `Compiler::compile` / nested bodies. -/
def compile_stmts (S : SymbolTable) (c : Chunk) (l : List Stmt) : Option Chunk :=
  match l with
  | [] => some c
  | s :: rest => do
      let c ← compile_stmt S c s
      compile_stmts S c rest
termination_by structural l

end

/-- `Compiler::compile`: all statements, then the trailing `Return`. -/
def compile (script : Script) (S : SymbolTable) : Option Chunk := do
  let c ← compile_stmts S Chunk.new script.statements
  return c.emit .Return 0

instance : DecidableEq Storage := inferInstanceAs (DecidableEq (List (String × Value)))

instance : Repr Storage := inferInstanceAs (Repr (List (String × Value)))

instance : DecidableEq Host := inferInstanceAs (DecidableEq (List (String × Value)))

instance : Repr Host := inferInstanceAs (Repr (List (String × Value)))

/-- `RuntimeError` (vm.rs). -/
inductive RuntimeError where
  | NotAtChoice
  | InvalidChoiceIndex (index : Nat) (count : Nat)
  | MissingSaveVariable (name : String)
  | MissingExternVariable (name : String)
deriving DecidableEq, Repr

/-- `StepResult` (vm.rs). -/
inductive StepResult where
  | Line (text : String)
  | Choice (texts : List String)
  | Done
deriving DecidableEq, Repr

/-- The VM's mutable registers (`ip` and the value stack of `VM` in vm.rs;
index 0 is the bottom of the stack, as in Rust's `Vec`). -/
structure VMState where
  ip : Nat
  stack : List Value
deriving DecidableEq, Repr

/-- Outcome of the VM dispatch loop: a yielded `StepResult` with the final
registers and storage, a runtime error likewise, a panic (stack underflow /
out-of-bounds indexing), or fuel exhaustion (model artifact). -/
inductive VMOut where
  | ok (r : StepResult) (vm : VMState) (store : Storage)
  | err (e : RuntimeError) (vm : VMState) (store : Storage)
  | panic
  | out
deriving DecidableEq, Repr

/-- `Vec::pop`: the top of the stack is the list's last element. -/
def stack_pop (stack : List Value) : Option (Value × List Value) :=
  match stack.getLast? with
  | none => none
  | some v => some (v, stack.dropLast)

/-- `VM::run` (vm.rs): the dispatch loop, fuelled.  The chunk and the host
oracle are read-only; the storage is threaded through. -/
def VM.run (ch : Chunk) (host : Host) : Nat → VMState → Storage → VMOut
  | 0, _, _ => .out
  | fuel + 1, vm, store =>
    match ch.code.get? vm.ip with
    | none => .panic  -- Rust indexes `self.chunk.code[self.ip]`
    | some instruction =>
      let ip := vm.ip + 1
      match instruction with
      | .Constant index =>
        match ch.constants.get? index with
        | none => .panic
        | some value => VM.run ch host fuel ⟨ip, vm.stack ++ [value]⟩ store
      | .GetLocal slot =>
        match vm.stack.get? slot with
        | none => .panic
        | some value => VM.run ch host fuel ⟨ip, vm.stack ++ [value]⟩ store
      | .SetLocal slot =>
        match stack_pop vm.stack with
        | none => .panic
        | some (value, stack) =>
          if slot < stack.length then
            VM.run ch host fuel ⟨ip, stack.set slot value⟩ store
          else .panic
      | .Concat count =>
        if count ≤ vm.stack.length then
          let start := vm.stack.length - count
          let result := String.join ((vm.stack.drop start).map Value.to_string_value)
          VM.run ch host fuel ⟨ip, vm.stack.take start ++ [.string result]⟩ store
        else .panic
      | .Line =>
        match stack_pop vm.stack with
        | none => .panic
        | some (value, stack) => .ok (.Line value.to_string_value) ⟨ip, stack⟩ store
      | .ChoiceSet count _ =>
        if count ≤ vm.stack.length then
          let start := vm.stack.length - count
          let choices := (vm.stack.drop start).map Value.to_string_value
          -- `self.ip -= 1`: back to the ChoiceSet so selection can read it
          .ok (.Choice choices) ⟨vm.ip, vm.stack.take start⟩ store
        else .panic
      | .Jump target => VM.run ch host fuel ⟨target, vm.stack⟩ store
      | .InitStorage name =>
        match stack_pop vm.stack with
        | none => .panic
        | some (value, stack) =>
            VM.run ch host fuel ⟨ip, stack⟩ (store.initialize_if_absent name value)
      | .GetStorage name =>
        match store.get name with
        | some value => VM.run ch host fuel ⟨ip, vm.stack ++ [value]⟩ store
        | none => .err (.MissingSaveVariable name) ⟨ip, vm.stack⟩ store
      | .SetStorage name =>
        match stack_pop vm.stack with
        | none => .panic
        | some (value, stack) =>
            VM.run ch host fuel ⟨ip, stack⟩ (store.set name value)
      | .GetHost name =>
        match host.lookup name with
        | some value => VM.run ch host fuel ⟨ip, vm.stack ++ [value]⟩ store
        | none => .err (.MissingExternVariable name) ⟨ip, vm.stack⟩ store
      | .Return => .ok .Done ⟨ip, vm.stack⟩ store

/-- `VM::is_at_end`: follow jump chains; `Return` (or past the end) means
end, a `ChoiceSet` or anything else means more content.  Fuelled because a
jump cycle would loop (compiled chunks have none). -/
def VM.is_at_end (ch : Chunk) : Nat → Nat → Option Bool
  | 0, _ => none
  | fuel + 1, ip =>
    match ch.code.get? ip with
    | none => some true
    | some .Return => some true
    | some (.Jump target) => VM.is_at_end ch fuel target
    | some (.ChoiceSet _ _) => some false
    | some _ => some false

/-- `VM::select_and_continue`: requires `ip` to point at a `ChoiceSet`;
jumps to `targets[index]` and re-enters the dispatch loop. -/
def VM.select_and_continue (ch : Chunk) (host : Host) (fuel : Nat)
    (vm : VMState) (store : Storage) (index : Nat) : VMOut :=
  match ch.code.get? vm.ip with
  | none => .panic
  | some (.ChoiceSet count targets) =>
    if count ≤ index then .err (.InvalidChoiceIndex index count) vm store
    else
      match targets.get? index with
      | none => .panic  -- `targets[index]` out of bounds
      | some t => VM.run ch host fuel ⟨t, vm.stack⟩ store
  | some _ => .err .NotAtChoice vm store

/-- `BobbinError` (lib.rs).  The `Compile(CompileError)` variant is omitted:
`CompileError` is an uninhabited enum in compiler.rs, so that variant can
never be constructed. -/
inductive BobbinError where
  | Parse (errors : List ParseError)
  | Semantic (errors : List SemanticError)
  | Runtime (e : RuntimeError)
deriving DecidableEq, Repr

/-- `Runtime` (lib.rs): the facade owning the VM, the capability objects
and the line/choices cache. -/
structure Runtime where
  chunk : Chunk
  vm : VMState
  storage : Storage
  host_state : Host
  source : List Char
  current_line : Option String
  current_choices : Option (List String)
  is_done : Bool
deriving DecidableEq, Repr

/-- `Runtime::current_line()` (the accessor: the cached line or `""`). -/
def Runtime.current_line_str (r : Runtime) : String := r.current_line.getD ""

/-- `Runtime::current_choices()` (the accessor). -/
def Runtime.current_choices_list (r : Runtime) : List String :=
  r.current_choices.getD []

/-- `Runtime::has_more`. -/
def Runtime.has_more (r : Runtime) : Bool := ! r.is_done

/-- `Runtime::is_waiting_for_choice`. -/
def Runtime.is_waiting_for_choice (r : Runtime) : Bool := r.current_choices.isSome

/-- Outcome of a facade operation: `Ok(())` with the new state, a
`RuntimeError` with the state as mutated so far, or `stuck` (panic or fuel
exhaustion inside the VM — a model artifact, not a Rust return). -/
inductive FOut where
  | ok (r : Runtime)
  | err (e : RuntimeError) (r : Runtime)
  | stuck
deriving DecidableEq, Repr

/-- `Runtime::handle_step_result`; `none` when `is_at_end` runs out of
fuel.  Note the `Line` and `Done` arms leave `current_choices` untouched,
as in the source. -/
def Runtime.handle_step_result (fuel : Nat) (r : Runtime) (result : StepResult)
    (vm : VMState) (store : Storage) : Option Runtime :=
  match result with
  | .Line text =>
    match VM.is_at_end r.chunk fuel vm.ip with
    | none => none
    | some done =>
        some { r with
                vm := vm, storage := store,
                current_line := some text, is_done := done }
  | .Choice choices =>
      some { r with
              vm := vm, storage := store, current_line := none,
              current_choices := some choices }
  | .Done =>
      some { r with
              vm := vm, storage := store, current_line := none,
              is_done := true }

/-- `Runtime::step_vm`. -/
def Runtime.step_vm (fuel : Nat) (r : Runtime) : FOut :=
  match VM.run r.chunk r.host_state fuel r.vm r.storage with
  | .ok result vm store =>
    match r.handle_step_result fuel result vm store with
    | some r' => .ok r'
    | none => .stuck
  | .err e vm store => .err e { r with vm := vm, storage := store }
  | .panic => .stuck
  | .out => .stuck

/-- `Runtime::advance`: a no-op once done. -/
def Runtime.advance (fuel : Nat) (r : Runtime) : FOut :=
  if r.is_done then .ok r else r.step_vm fuel

/-- `Runtime::select_choice`: only acts when waiting for a choice; clears
the choice cache, selects, and handles the step result. -/
def Runtime.select_choice (fuel : Nat) (r : Runtime) (index : Nat) : FOut :=
  if r.current_choices.isSome then
    let r := { r with current_choices := none }
    match VM.select_and_continue r.chunk r.host_state fuel r.vm r.storage index with
    | .ok result vm store =>
      match r.handle_step_result fuel result vm store with
      | some r' => .ok r'
      | none => .stuck
    | .err e vm store => .err e { r with vm := vm, storage := store }
    | .panic => .stuck
    | .out => .stuck
  else .ok r

/-- Outcome of `Runtime::with_storage_and_host`. -/
inductive NewResult where
  | ok (r : Runtime)
  | err (e : BobbinError)
  | stuck
deriving DecidableEq, Repr

/-- `Runtime::with_storage_and_host`: scan, parse, resolve, compile, then
eagerly step the VM once. -/
def Runtime.with_storage_and_host (script : List Char) (fuel : Nat)
    (storage : Storage) (host_state : Host) : NewResult :=
  match tokenize script fuel with
  | none => .stuck
  | some toks =>
    match Parser.parse fuel (Parser.new toks) with
    | none => .stuck
    | some (.error errors) => .err (.Parse errors)
    | some (.ok ast) =>
      match analyze ast with
      | .error errors => .err (.Semantic errors)
      | .ok symbols =>
        match compile ast symbols with
        | none => .stuck
        | some chunk =>
          let runtime : Runtime :=
            { chunk := chunk, vm := ⟨0, []⟩, storage := storage,
              host_state := host_state, source := script,
              current_line := none, current_choices := none, is_done := false }
          match runtime.step_vm fuel with
          | .ok r => .ok r
          | .err e _ => .err (.Runtime e)
          | .stuck => .stuck

/-- `Runtime::new`: default in-memory storage and empty host state. -/
def Runtime.new (script : List Char) (fuel : Nat) : NewResult :=
  Runtime.with_storage_and_host script fuel [] []

instance : Inhabited Choice := ⟨.mk [] ⟨0, 0⟩ []⟩

/-- The jump targets an instruction carries (spec invariant 1). -/
def instr_targets : Instruction → List Nat
  | .Jump target => [target]
  | .ChoiceSet _ targets => targets
  | _ => []

/-- One control-flow step between instruction indices: `Jump` goes to its
target, `ChoiceSet` to any of its targets, `Return` stops, everything else
falls through to the next instruction. -/
def instr_step (ch : Chunk) (a b : Nat) : Bool :=
  match ch.code.get? a with
  | some (.Jump target) => b = target
  | some (.ChoiceSet _ targets) => targets.contains b
  | some .Return => false
  | none => false
  | some _ => b = a + 1

/-- Whether consecutive elements of the list are control-flow steps. -/
def chain_ok (ch : Chunk) : List Nat → Bool
  | a :: b :: rest => instr_step ch a b && chain_ok ch (b :: rest)
  | _ => true

/-- The claim's property, as stated: every `GetStorage { name }` is
preceded on every control-flow path from instruction 0 to it by an
`InitStorage { name }` for the same name. -/
def GetStorage_path_guarded (ch : Chunk) : Prop :=
  ∀ j name, ch.code.get? j = some (.GetStorage name) →
    ∀ p : List Nat, chain_ok ch p = true → p.head? = some 0 →
      p.getLast? = some j →
      ∃ i ∈ p.dropLast, ch.code.get? i = some (.InitStorage name)

/-- The `NodeId`s of the text parts. -/
def parts_ids : List TextPart → List NodeId
  | [] => []
  | .Literal _ _ :: rest => parts_ids rest
  | .VarRef id _ _ :: rest => id :: parts_ids rest

mutual

/-- All `NodeId`s a statement carries (declarations, assignments and
variable references), in traversal order. -/
def stmt_ids (s : Stmt) : List NodeId :=
  match s with
  | .Line parts _ => parts_ids parts
  | .TempDecl d => [d.id]
  | .SaveDecl d => [d.id]
  | .Assignment d => [d.id]
  | .ExternDecl id _ _ => [id]
  | .ChoiceSet choices => choices_text_ids choices ++ choices_nested_ids choices
termination_by structural s

def choices_text_ids (cs : List Choice) : List NodeId :=
  match cs with
  | [] => []
  | c :: rest => parts_ids c.parts ++ choices_text_ids rest
termination_by structural cs

def choices_nested_ids (cs : List Choice) : List NodeId :=
  match cs with
  | [] => []
  | .mk _ _ nested :: rest => stmts_ids nested ++ choices_nested_ids rest
termination_by structural cs

def stmts_ids (l : List Stmt) : List NodeId :=
  match l with
  | [] => []
  | s :: rest => stmt_ids s ++ stmts_ids rest
termination_by structural l

end

/-- All `NodeId`s of a script are distinct.  The parser stamps a strictly
increasing counter, so every parsed script satisfies this. -/
def Script.idsNodup (script : Script) : Prop :=
  (stmts_ids script.statements).Nodup

/-- The facade states reachable through the public API from a successful
construction: `advance` and `select_choice` outcomes (`Ok` or a runtime
error), plus arbitrary storage replacement by the host between calls
(explicitly supported by the spec). -/
inductive Reachable : Runtime → Prop where
  | init (script : List Char) (fuel : Nat) (storage : Storage) (host : Host)
      (r : Runtime) :
      Runtime.with_storage_and_host script fuel storage host = .ok r → Reachable r
  | advance_ok (r r' : Runtime) (fuel : Nat) :
      Reachable r → r.advance fuel = .ok r' → Reachable r'
  | advance_err (r r' : Runtime) (fuel : Nat) (e : RuntimeError) :
      Reachable r → r.advance fuel = .err e r' → Reachable r'
  | select_ok (r r' : Runtime) (fuel : Nat) (i : Nat) :
      Reachable r → r.select_choice fuel i = .ok r' → Reachable r'
  | select_err (r r' : Runtime) (fuel : Nat) (i : Nat) (e : RuntimeError) :
      Reachable r → r.select_choice fuel i = .err e r' → Reachable r'
  | host_mutation (r : Runtime) (store : Storage) :
      Reachable r → Reachable { r with storage := store }

/-! ### Concrete pipeline artifacts

For each end-to-end scenario the intermediate artifacts (token list, AST,
symbol table, chunk, runtime states) are given as literals; the theorems
prove each stage equal to its literal and chain them. -/

/-- Scenario S5 of the spec (claim C1): extern read. -/
def c1_src : List Char := "extern player_health\nHP: {player_health}\n".toList

def c1_host : Host := [("player_health", Value.number 42)]

def c1_toks : List (Except LexicalError Token) :=
  [.ok ⟨.Extern, "extern ".toList, ⟨0, 7⟩⟩,
   .ok ⟨.Identifier, "player_health".toList, ⟨7, 20⟩⟩,
   .ok ⟨.NewLine, ['\n'], ⟨20, 21⟩⟩,
   .ok ⟨.TextSegment, "HP: ".toList, ⟨21, 25⟩⟩,
   .ok ⟨.OpenBrace, ['{'], ⟨25, 26⟩⟩,
   .ok ⟨.Identifier, "player_health".toList, ⟨26, 39⟩⟩,
   .ok ⟨.CloseBrace, ['}'], ⟨39, 40⟩⟩,
   .ok ⟨.NewLine, ['\n'], ⟨40, 41⟩⟩]

def c1_ast : Script :=
  ⟨[.ExternDecl 0 "player_health" ⟨0, 20⟩,
    .Line [.Literal "HP: " ⟨21, 25⟩, .VarRef 1 "player_health" ⟨25, 40⟩] ⟨21, 40⟩]⟩

def c1_syms : SymbolTable := ⟨[], [], [(1, "player_health")]⟩

def c1_chunk : Chunk :=
  ⟨[.Constant 0, .GetHost "player_health", .Concat 2, .Line, .Return],
   [.string "HP: "], [21, 25, 21, 21, 0]⟩

def c1_runtime : Runtime :=
  { chunk := c1_chunk, vm := ⟨4, []⟩, storage := [], host_state := c1_host,
    source := c1_src, current_line := some "HP: 42", current_choices := none,
    is_done := true }

/-- Claim C2's failing input: a temp declared after a choice set whose
first branch declared a temp of its own. -/
def c2_src : List Char := "- A\n    temp x = 1\n- B\ntemp y = 2\nEnd {y}\n".toList

def c2_toks : List (Except LexicalError Token) :=
  [.ok ⟨.Choice, "- ".toList, ⟨0, 2⟩⟩,
   .ok ⟨.TextSegment, "A".toList, ⟨2, 3⟩⟩,
   .ok ⟨.NewLine, ['\n'], ⟨3, 4⟩⟩,
   .ok ⟨.Indent, [], ⟨8, 8⟩⟩,
   .ok ⟨.Temp, "temp ".toList, ⟨8, 13⟩⟩,
   .ok ⟨.Identifier, "x".toList, ⟨13, 14⟩⟩,
   .ok ⟨.Equals, "=".toList, ⟨15, 16⟩⟩,
   .ok ⟨.Number, "1".toList, ⟨17, 18⟩⟩,
   .ok ⟨.NewLine, ['\n'], ⟨18, 19⟩⟩,
   .ok ⟨.Dedent, [], ⟨19, 19⟩⟩,
   .ok ⟨.Choice, "- ".toList, ⟨19, 21⟩⟩,
   .ok ⟨.TextSegment, "B".toList, ⟨21, 22⟩⟩,
   .ok ⟨.NewLine, ['\n'], ⟨22, 23⟩⟩,
   .ok ⟨.Temp, "temp ".toList, ⟨23, 28⟩⟩,
   .ok ⟨.Identifier, "y".toList, ⟨28, 29⟩⟩,
   .ok ⟨.Equals, "=".toList, ⟨30, 31⟩⟩,
   .ok ⟨.Number, "2".toList, ⟨32, 33⟩⟩,
   .ok ⟨.NewLine, ['\n'], ⟨33, 34⟩⟩,
   .ok ⟨.TextSegment, "End ".toList, ⟨34, 38⟩⟩,
   .ok ⟨.OpenBrace, ['{'], ⟨38, 39⟩⟩,
   .ok ⟨.Identifier, "y".toList, ⟨39, 40⟩⟩,
   .ok ⟨.CloseBrace, ['}'], ⟨40, 41⟩⟩,
   .ok ⟨.NewLine, ['\n'], ⟨41, 42⟩⟩]

def c2_choices : List Choice :=
  [Choice.mk [.Literal "A" ⟨2, 3⟩] ⟨0, 3⟩ [.TempDecl ⟨0, "x", .Number 1, ⟨8, 18⟩⟩],
   Choice.mk [.Literal "B" ⟨21, 22⟩] ⟨19, 22⟩ []]

def c2_ast : Script :=
  ⟨[.ChoiceSet c2_choices,
    .TempDecl ⟨1, "y", .Number 2, ⟨23, 33⟩⟩,
    .Line [.Literal "End " ⟨34, 38⟩, .VarRef 2 "y" ⟨38, 41⟩] ⟨34, 41⟩]⟩

def c2_syms : SymbolTable := ⟨[(2, 0), (1, 0), (0, 0)], [], []⟩

def c2_chunk : Chunk :=
  ⟨[.Constant 0, .Constant 1, .ChoiceSet 2 [3, 5], .Constant 2, .Jump 6,
    .Jump 6, .Constant 3, .Constant 4, .GetLocal 0, .Concat 2, .Line, .Return],
   [.string "A", .string "B", .number 1, .number 2, .string "End "],
   [0, 19, 0, 8, 0, 19, 23, 34, 38, 34, 34, 0]⟩

/-- The facade state right after constructing the C2 runtime: paused at
the choice set. -/
def c2_r0 : Runtime :=
  { chunk := c2_chunk, vm := ⟨2, []⟩, storage := [], host_state := [],
    source := c2_src, current_line := none,
    current_choices := some ["A", "B"], is_done := false }

/-- The facade state after `select_choice(0)` on `c2_r0`: the eventual
`GetLocal 0` reads the branch temp `x` (still on the stack), not `y`. -/
def c2_r1 : Runtime :=
  { chunk := c2_chunk, vm := ⟨11, [.number 1, .number 2]⟩, storage := [],
    host_state := [], source := c2_src, current_line := some "End 1",
    current_choices := none, is_done := true }

/-- The facade state after `select_choice(1)` on `c2_r0`: branch B left no
temps behind, so `y` is read correctly. -/
def c2_r1b : Runtime :=
  { chunk := c2_chunk, vm := ⟨11, [.number 2]⟩, storage := [],
    host_state := [], source := c2_src, current_line := some "End 2",
    current_choices := none, is_done := true }

/-- Claim C3's counterexample input: the save declaration sits inside the
first branch; the reference comes after the gather point. -/
def c3_src : List Char := "- A\n    save gold = 1\n- B\nYou have {gold}.\n".toList

def c3_toks : List (Except LexicalError Token) :=
  [.ok ⟨.Choice, "- ".toList, ⟨0, 2⟩⟩,
   .ok ⟨.TextSegment, "A".toList, ⟨2, 3⟩⟩,
   .ok ⟨.NewLine, ['\n'], ⟨3, 4⟩⟩,
   .ok ⟨.Indent, [], ⟨8, 8⟩⟩,
   .ok ⟨.Save, "save ".toList, ⟨8, 13⟩⟩,
   .ok ⟨.Identifier, "gold".toList, ⟨13, 17⟩⟩,
   .ok ⟨.Equals, "=".toList, ⟨18, 19⟩⟩,
   .ok ⟨.Number, "1".toList, ⟨20, 21⟩⟩,
   .ok ⟨.NewLine, ['\n'], ⟨21, 22⟩⟩,
   .ok ⟨.Dedent, [], ⟨22, 22⟩⟩,
   .ok ⟨.Choice, "- ".toList, ⟨22, 24⟩⟩,
   .ok ⟨.TextSegment, "B".toList, ⟨24, 25⟩⟩,
   .ok ⟨.NewLine, ['\n'], ⟨25, 26⟩⟩,
   .ok ⟨.TextSegment, "You have ".toList, ⟨26, 35⟩⟩,
   .ok ⟨.OpenBrace, ['{'], ⟨35, 36⟩⟩,
   .ok ⟨.Identifier, "gold".toList, ⟨36, 40⟩⟩,
   .ok ⟨.CloseBrace, ['}'], ⟨40, 41⟩⟩,
   .ok ⟨.TextSegment, ".".toList, ⟨41, 42⟩⟩,
   .ok ⟨.NewLine, ['\n'], ⟨42, 43⟩⟩]

def c3_ast : Script :=
  ⟨[.ChoiceSet
      [Choice.mk [.Literal "A" ⟨2, 3⟩] ⟨0, 3⟩
        [.SaveDecl ⟨0, "gold", .Number 1, ⟨8, 21⟩⟩],
       Choice.mk [.Literal "B" ⟨24, 25⟩] ⟨22, 25⟩ []],
    .Line [.Literal "You have " ⟨26, 35⟩, .VarRef 1 "gold" ⟨35, 41⟩,
           .Literal "." ⟨41, 42⟩] ⟨26, 42⟩]⟩

def c3_syms : SymbolTable := ⟨[], [(1, "gold"), (0, "gold")], []⟩

def c3_chunk : Chunk :=
  ⟨[.Constant 0, .Constant 1, .ChoiceSet 2 [3, 6], .Constant 2,
    .InitStorage "gold", .Jump 7, .Jump 7, .Constant 3, .GetStorage "gold",
    .Constant 4, .Concat 3, .Line, .Return],
   [.string "A", .string "B", .number 1, .string "You have ", .string "."],
   [0, 22, 0, 8, 8, 0, 22, 26, 35, 41, 26, 26, 0]⟩

/-- Scenario S6 of the spec (claim C6): assigning to an extern. -/
def c6_src : List Char := "extern level\nset level = 5\n".toList

def c6_toks : List (Except LexicalError Token) :=
  [.ok ⟨.Extern, "extern ".toList, ⟨0, 7⟩⟩,
   .ok ⟨.Identifier, "level".toList, ⟨7, 12⟩⟩,
   .ok ⟨.NewLine, ['\n'], ⟨12, 13⟩⟩,
   .ok ⟨.Set, "set ".toList, ⟨13, 17⟩⟩,
   .ok ⟨.Identifier, "level".toList, ⟨17, 22⟩⟩,
   .ok ⟨.Equals, "=".toList, ⟨23, 24⟩⟩,
   .ok ⟨.Number, "5".toList, ⟨25, 26⟩⟩,
   .ok ⟨.NewLine, ['\n'], ⟨26, 27⟩⟩]

def c6_ast : Script :=
  ⟨[.ExternDecl 0 "level" ⟨0, 12⟩,
    .Assignment ⟨1, "level", .Number 5, ⟨13, 26⟩⟩]⟩

/-- A one-line script whose runtime is immediately done (used by the
C9/C10 witnesses). -/
def hello_src : List Char := "Hello.\n".toList

def hello_toks : List (Except LexicalError Token) :=
  [.ok ⟨.TextSegment, "Hello.".toList, ⟨0, 6⟩⟩,
   .ok ⟨.NewLine, ['\n'], ⟨6, 7⟩⟩]

def hello_ast : Script := ⟨[.Line [.Literal "Hello." ⟨0, 6⟩] ⟨0, 6⟩]⟩

def hello_syms : SymbolTable := ⟨[], [], []⟩

def hello_chunk : Chunk :=
  ⟨[.Constant 0, .Line, .Return], [.string "Hello."], [0, 0, 0]⟩

def hello_runtime : Runtime :=
  { chunk := hello_chunk, vm := ⟨2, []⟩, storage := [], host_state := [],
    source := hello_src, current_line := some "Hello.",
    current_choices := none, is_done := true }

/-- The conclusion of claim C4 about one lowered choice set (`c'` is the
chunk right after the lowering, so `c'.code.length` is the gather point —
the instruction index at which whatever follows the choice set will be
emitted).  For each valid choice index `i`: selection continues execution
exactly at the recorded branch start `ts[i]`; the region from `ts[i]` to
`js[i]` is the compilation of the i-th choice's nested statements; the
instruction at `js[i]` is a `Jump` to the gather point; and an empty
nested body makes the branch start that `Jump` itself. -/
def C4Concl (S : SymbolTable) (choices : List Choice) (c' : Chunk) : Prop :=
  ∃ (cso : Nat) (ts js : List Nat),
    c'.code.get? cso = some (.ChoiceSet choices.length ts) ∧
    ts.length = choices.length ∧
    js.length = choices.length ∧
    ∀ i, i < choices.length →
      (∀ (host : Host) (fuel : Nat) (stack : List Value) (store : Storage),
        VM.select_and_continue c' host fuel ⟨cso, stack⟩ store i =
          VM.run c' host fuel ⟨ts.getD i 0, stack⟩ store) ∧
      (∃ t u : Chunk,
        compile_stmts S t (choices.getD i default).nested = some u ∧
        ts.getD i 0 = t.code.length ∧
        js.getD i 0 = u.code.length ∧
        ∀ k, ts.getD i 0 ≤ k → k < js.getD i 0 →
          c'.code.get? k = u.code.get? k) ∧
      c'.code.get? (js.getD i 0) = some (.Jump c'.code.length) ∧
      ((choices.getD i default).nested = [] →
        c'.code.get? (ts.getD i 0) = some (.Jump c'.code.length))

/-- The chunk produced by lowering the C2 choice set alone (used by the C4
witness). -/
def c4_out : Chunk :=
  ⟨[.Constant 0, .Constant 1, .ChoiceSet 2 [3, 5], .Constant 2, .Jump 6,
    .Jump 6],
   [.string "A", .string "B", .number 1],
   [0, 19, 0, 8, 0, 19]⟩

/-- An `InitStorage { name }` instruction occurs somewhere in the chunk. -/
def HasInit (c : Chunk) (name : String) : Prop :=
  ∃ i, c.code.get? i = some (.InitStorage name)

/-- Claim C3's amended property, in its loop-invariant form: every
`GetStorage { name }` in the chunk is preceded at a smaller instruction
index by an `InitStorage { name }` for the same name. -/
def GoodC (c : Chunk) : Prop :=
  ∀ j name, c.code.get? j = some (.GetStorage name) →
    ∃ i, i < j ∧ c.code.get? i = some (.InitStorage name)

/-- The joint resolver/compiler invariant behind C3: every save name the
resolver has declared so far already has its `InitStorage` emitted. -/
def SavesInv (r : Resolver) (c : Chunk) : Prop :=
  ∀ name, (alist_lookup r.save_vars name).isSome = true → HasInit c name

/-- The facade invariant behind C10: whenever the choice cache is
populated, the VM's `ip` rests on a `ChoiceSet` instruction (the VM backs
up onto it when yielding a choice). -/
def WaitInv (r : Runtime) : Prop :=
  r.current_choices.isSome = true →
  ∃ count targets, r.chunk.code.get? r.vm.ip = some (.ChoiceSet count targets)

/-! ## Theorems -/

/-- `get` after `set` of the same name sees the written value. -/
theorem storage_get_set (st : Storage) (name : String) (v : Value) :
    (st.set name v).get name = some v := by
  induction st with
  | nil => simp [Storage.set, Storage.get]
  | cons kv rest ih =>
    obtain ⟨k, w⟩ := kv
    by_cases h : k = name
    · simp [Storage.set, Storage.get, h]
    · simp [Storage.set, Storage.get, h, ih]

/-- C8: for the provided `MemoryStorage` implementation,
`initialize_if_absent(name, d)` twice leaves storage exactly as one call
does, and a `set(name, v)` after an `initialize_if_absent(name, d)` is
reflected by a subsequent `get(name)`. -/
theorem claim_C8 (st : Storage) (name : String) (d v : Value) :
    (st.initialize_if_absent name d).initialize_if_absent name d =
      st.initialize_if_absent name d ∧
    ((st.initialize_if_absent name d).set name v).get name = some v := by
  constructor
  · by_cases h : st.contains name = true
    · simp [Storage.initialize_if_absent, h]
    · simp only [Storage.initialize_if_absent, h]
      simp only [Bool.false_eq_true, if_false, if_neg h]
      have : Storage.contains ((name, d) :: st) name = true := by
        simp [Storage.contains, Storage.get]
      simp [this]
  · exact storage_get_set _ name v

/-- C9: once `has_more()` is `false`, `advance()` returns `Ok` and leaves
the whole runtime state (line cache, choice cache, done flag, VM registers
and storage) unchanged. -/
theorem claim_C9 (r : Runtime) (fuel : Nat) (h : r.has_more = false) :
    r.advance fuel = .ok r := by
  have hd : r.is_done = true := by
    simpa [Runtime.has_more] using h
  simp [Runtime.advance, hd]

/-- Witness for C9 at a concrete finished runtime. -/
theorem claim_C9_witness :
    hello_runtime.has_more = false ∧ hello_runtime.advance 5 = .ok hello_runtime :=
  ⟨rfl, claim_C9 hello_runtime 5 rfl⟩

/-! ### Stage equalities for the concrete scenarios -/

theorem c1_tokens_eq : tokenize c1_src 200 = some c1_toks := by rfl

theorem c1_parse_eq : Parser.parse 200 (Parser.new c1_toks) = some (.ok c1_ast) := by
  rfl

theorem c1_analyze_eq : analyze c1_ast = .ok c1_syms := by rfl

theorem c1_compile_eq : compile c1_ast c1_syms = some c1_chunk := by rfl

theorem c1_construct :
    Runtime.with_storage_and_host c1_src 200 [] c1_host = .ok c1_runtime := by
  simp only [Runtime.with_storage_and_host, c1_tokens_eq, c1_parse_eq,
    c1_analyze_eq, c1_compile_eq]
  rfl

/-- C1: the extern scenario S5.  The script is recognized (`extern` keyword
at line start produces the `Extern` token), the reference compiles to a
`GetHost` read, and with a host oracle answering `Number(42)` the runtime
yields exactly the line `HP: 42` and is then done. -/
theorem claim_C1 :
    Runtime.with_storage_and_host c1_src 200 [] c1_host = .ok c1_runtime ∧
    c1_runtime.current_line_str = "HP: 42" ∧
    c1_runtime.has_more = false ∧
    (Scanner.scan_token 200 (Scanner.new c1_src)).2 =
      .tok ⟨.Extern, "extern ".toList, ⟨0, 7⟩⟩ ∧
    c1_chunk.code.get? 1 = some (.GetHost "player_health") :=
  ⟨c1_construct, rfl, rfl, rfl, rfl⟩

theorem c2_tokens_eq : tokenize c2_src 200 = some c2_toks := by rfl

theorem c2_parse_eq : Parser.parse 200 (Parser.new c2_toks) = some (.ok c2_ast) := by
  rfl

theorem c2_analyze_eq : analyze c2_ast = .ok c2_syms := by rfl

theorem c2_compile_eq : compile c2_ast c2_syms = some c2_chunk := by rfl

theorem c2_construct :
    Runtime.with_storage_and_host c2_src 200 [] [] = .ok c2_r0 := by
  simp only [Runtime.with_storage_and_host, c2_tokens_eq, c2_parse_eq,
    c2_analyze_eq, c2_compile_eq]
  rfl

theorem c2_select0 : c2_r0.select_choice 200 0 = .ok c2_r1 := by rfl

theorem c2_select1 : c2_r0.select_choice 200 1 = .ok c2_r1b := by rfl

/-- C2 (code bug): the claim says the `Constant` emitted for `temp y = 2`
lands at the stack index equal to its resolver slot (0), so the later
`GetLocal 0` reads `y`.  In fact the VM never pops branch temps: after
selecting branch A (which declared `temp x = 1`), `x`'s value is still at
stack index 0, `y`'s `Constant` lands at index 1, and `GetLocal 0` reads
`x` — the final line renders `End 1` instead of the intended `End 2`.
Selecting the empty branch B yields the intended `End 2`. -/
theorem claim_C2 :
    Runtime.with_storage_and_host c2_src 200 [] [] = .ok c2_r0 ∧
    c2_r0.current_choices_list = ["A", "B"] ∧
    alist_lookup c2_syms.bindings 1 = some 0 ∧
    c2_r0.select_choice 200 0 = .ok c2_r1 ∧
    c2_r1.current_line_str = "End 1" ∧
    c2_r0.select_choice 200 1 = .ok c2_r1b ∧
    c2_r1b.current_line_str = "End 2" :=
  ⟨c2_construct, rfl, rfl, c2_select0, rfl, c2_select1, rfl⟩

theorem c3_tokens_eq : tokenize c3_src 200 = some c3_toks := by rfl

theorem c3_parse_eq : Parser.parse 200 (Parser.new c3_toks) = some (.ok c3_ast) := by
  rfl

theorem c3_analyze_eq : analyze c3_ast = .ok c3_syms := by rfl

theorem c3_compile_eq : compile c3_ast c3_syms = some c3_chunk := by rfl

/-- Counterexample to C3 as stated: in the compiled `c3_src` chunk the
`GetStorage "gold"` at index 8 is reachable from instruction 0 along the
control-flow path through branch B (`[0,1,2,6,7,8]`), which contains no
`InitStorage "gold"` — the save declaration sits inside branch A only. -/
theorem claim_C3_counterexample :
    tokenize c3_src 200 = some c3_toks ∧
    Parser.parse 200 (Parser.new c3_toks) = some (.ok c3_ast) ∧
    analyze c3_ast = .ok c3_syms ∧
    compile c3_ast c3_syms = some c3_chunk ∧
    c3_chunk.code.get? 8 = some (.GetStorage "gold") ∧
    ¬ GetStorage_path_guarded c3_chunk := by
  refine ⟨c3_tokens_eq, c3_parse_eq, c3_analyze_eq, c3_compile_eq, rfl, ?_⟩
  intro h
  have h2 := h 8 "gold" rfl [0, 1, 2, 6, 7, 8] (by decide) rfl (by decide)
  exact absurd h2 (by decide)

theorem c6_tokens_eq : tokenize c6_src 200 = some c6_toks := by rfl

theorem c6_parse_eq : Parser.parse 200 (Parser.new c6_toks) = some (.ok c6_ast) := by
  rfl

theorem c6_analyze_eq :
    analyze c6_ast = .error [.AssignmentToExtern "level" ⟨13, 26⟩] := by rfl

/-- C6: compiling `extern level\nset level = 5\n` fails, and the reported
error is `AssignmentToExtern { name: "level" }` (an assignment to a
declared extern is rejected at resolution time). -/
theorem claim_C6 :
    Runtime.new c6_src 200 =
      .err (.Semantic [.AssignmentToExtern "level" ⟨13, 26⟩]) := by
  simp only [Runtime.new, Runtime.with_storage_and_host, c6_tokens_eq,
    c6_parse_eq, c6_analyze_eq]

/-! ### Compiler structure lemmas -/

/-- `c'` extends `c`: the code only grew, and the old instructions are
untouched (the compiler appends, and patches only offsets recorded during
the current lowering, which lie past the entry length). -/
def Ext (c c' : Chunk) : Prop :=
  c.code.length ≤ c'.code.length ∧
  ∀ k, k < c.code.length → c'.code.get? k = c.code.get? k

theorem Ext.refl (c : Chunk) : Ext c c := ⟨le_rfl, fun _ _ => rfl⟩

theorem Ext.trans {a b c : Chunk} (h1 : Ext a b) (h2 : Ext b c) : Ext a c :=
  ⟨le_trans h1.1 h2.1, fun k hk => (h2.2 k (lt_of_lt_of_le hk h1.1)).trans (h1.2 k hk)⟩

theorem emit_code (c : Chunk) (i : Instruction) (l : Nat) :
    (c.emit i l).code = c.code ++ [i] := rfl

theorem ext_of_append {c c' : Chunk} (l : List Instruction)
    (h : c'.code = c.code ++ l) : Ext c c' := by
  constructor
  · simp [h]
  · intro k hk
    simp [h, List.getElem?_append_left hk]

theorem ext_emit (c : Chunk) (i : Instruction) (l : Nat) : Ext c (c.emit i l) :=
  ext_of_append [i] rfl

theorem emit_get_last (c : Chunk) (i : Instruction) (l : Nat) :
    (c.emit i l).code.get? c.code.length = some i := by
  simp [emit_code, List.getElem?_append_right, Nat.le_refl]

theorem emit_length (c : Chunk) (i : Instruction) (l : Nat) :
    (c.emit i l).code.length = c.code.length + 1 := by
  simp [emit_code]

theorem compile_literal_code (c : Chunk) (lit : Literal) (l : Nat) :
    (compile_literal c lit l).code = c.code ++ [.Constant c.constants.length] := by
  cases lit <;> rfl

theorem ext_compile_literal (c : Chunk) (lit : Literal) (l : Nat) :
    Ext c (compile_literal c lit l) :=
  ext_of_append _ (compile_literal_code c lit l)

theorem patch_jump_spec {c c' : Chunk} {off t : Nat}
    (h : c.patch_jump off t = some c') :
    c'.code.length = c.code.length ∧
    c'.code.get? off = some (.Jump t) ∧
    (∀ k, k ≠ off → c'.code.get? k = c.code.get? k) ∧
    ∃ t0, c.code.get? off = some (.Jump t0) := by
  unfold Chunk.patch_jump at h
  split at h
  case _ t0 heq =>
    cases h
    have hofflt : off < c.code.length := by
      by_contra hge
      rw [List.get?_eq_none.mpr (Nat.le_of_not_lt hge)] at heq
      exact Option.noConfusion heq
    refine ⟨by simp, ?_, ?_, ⟨t0, heq⟩⟩
    · simp [List.getElem?_set_self, hofflt]
    · intro k hk
      simp [List.getElem?_set_ne (Ne.symm hk)]
  case _ => exact absurd h (by simp)

theorem patch_choice_targets_spec {c c' : Chunk} {off : Nat} {ts : List Nat}
    (h : c.patch_choice_targets off ts = some c') :
    c'.code.length = c.code.length ∧
    (∃ count ts0, c.code.get? off = some (.ChoiceSet count ts0) ∧
      c'.code.get? off = some (.ChoiceSet count ts)) ∧
    (∀ k, k ≠ off → c'.code.get? k = c.code.get? k) := by
  unfold Chunk.patch_choice_targets at h
  split at h
  case _ count ts0 heq =>
    cases h
    have hofflt : off < c.code.length := by
      by_contra hge
      rw [List.get?_eq_none.mpr (Nat.le_of_not_lt hge)] at heq
      exact Option.noConfusion heq
    refine ⟨by simp, ⟨count, ts0, heq, ?_⟩, ?_⟩
    · simp [List.getElem?_set_self, hofflt]
    · intro k hk
      simp [List.getElem?_set_ne (Ne.symm hk)]
  case _ => exact absurd h (by simp)

/-- Spec invariant 1, in its loop-invariant form: every jump target in the
chunk is at most the current code length (the strict bound follows once
the trailing `Return` is appended). -/
def TargetsLE (c : Chunk) : Prop :=
  ∀ j instr, c.code.get? j = some instr → ∀ t ∈ instr_targets instr, t ≤ c.code.length

theorem targets_le_append {c c' : Chunk} {l : List Instruction}
    (h : c'.code = c.code ++ l)
    (hl : ∀ instr ∈ l, ∀ t ∈ instr_targets instr, t = 0)
    (hc : TargetsLE c) : TargetsLE c' := by
  intro j instr hj t ht
  rw [h] at hj
  rcases Nat.lt_or_ge j c.code.length with hlt | hge
  · rw [List.get?_eq_getElem?, List.getElem?_append_left hlt,
      ← List.get?_eq_getElem?] at hj
    calc t ≤ c.code.length := hc j instr hj t ht
    _ ≤ c'.code.length := by simp [h]
  · rw [List.get?_eq_getElem?, List.getElem?_append_right hge] at hj
    have : instr ∈ l := by
      have := List.getElem?_mem hj
      exact this
    have := hl instr this t ht
    omega

theorem targets_le_patch_jump {c c' : Chunk} {off t : Nat}
    (h : c.patch_jump off t = some c') (ht : t ≤ c.code.length)
    (hc : TargetsLE c) : TargetsLE c' := by
  obtain ⟨hlen, hoff, hother, _⟩ := patch_jump_spec h
  intro j instr hj u hu
  rcases eq_or_ne j off with rfl | hne
  · rw [hoff] at hj
    cases hj
    simp only [instr_targets, List.mem_singleton] at hu
    omega
  · rw [hother j hne] at hj
    have := hc j instr hj u hu
    omega

theorem targets_le_patch_choice {c c' : Chunk} {off : Nat} {ts : List Nat}
    (h : c.patch_choice_targets off ts = some c')
    (hts : ∀ t ∈ ts, t ≤ c.code.length)
    (hc : TargetsLE c) : TargetsLE c' := by
  obtain ⟨hlen, ⟨count, ts0, _, hoff⟩, hother⟩ := patch_choice_targets_spec h
  intro j instr hj u hu
  rcases eq_or_ne j off with rfl | hne
  · rw [hoff] at hj
    cases hj
    simp only [instr_targets] at hu
    have := hts u hu
    omega
  · rw [hother j hne] at hj
    have := hc j instr hj u hu
    omega

theorem patch_jumps_spec : ∀ (offs : List Nat) (c c' : Chunk) (g : Nat),
    patch_jumps c offs g = some c' →
    c'.code.length = c.code.length ∧
    (∀ k, k ∉ offs → c'.code.get? k = c.code.get? k) ∧
    (∀ k ∈ offs, c'.code.get? k = some (.Jump g)) ∧
    ((g ≤ c.code.length → TargetsLE c → TargetsLE c')) := by
  intro offs
  induction offs with
  | nil =>
    intro c c' g h
    cases h
    exact ⟨rfl, fun _ _ => rfl, by simp, fun _ h => h⟩
  | cons off rest ih =>
    intro c c' g h
    simp only [patch_jumps, Option.bind_eq_bind, Option.bind_eq_some] at h
    obtain ⟨c1, h1, h2⟩ := h
    obtain ⟨hlen1, hoff1, hother1, _⟩ := patch_jump_spec h1
    obtain ⟨hlen2, hother2, hmem2, htle2⟩ := ih c1 c' g h2
    refine ⟨by omega, ?_, ?_, ?_⟩
    · intro k hk
      rw [hother2 k (fun hmem => hk (List.mem_cons_of_mem _ hmem)),
        hother1 k (fun heq => hk (heq ▸ List.mem_cons_self _ _))]
    · intro k hk
      rcases List.mem_cons.mp hk with rfl | hmem
      · by_cases hin : k ∈ rest
        · exact hmem2 k hin
        · rw [hother2 k hin]; exact hoff1
      · exact hmem2 k hmem
    · intro hg hc
      exact htle2 (by omega) (targets_le_patch_jump h1 hg hc)

/-- `emit_var_read` appends a single read instruction (no targets). -/
theorem emit_var_read_code {S : SymbolTable} {c c' : Chunk} {id : NodeId}
    {line : Nat} (h : emit_var_read S c id line = some c') :
    ∃ instr, c'.code = c.code ++ [instr] ∧ instr_targets instr = [] ∧
      (∀ name, instr = .GetStorage name → get_save_name S id = some name) ∧
      (∀ name, instr ≠ .InitStorage name) := by
  unfold emit_var_read at h
  split at h
  case _ name heq =>
    cases h
    refine ⟨.GetStorage name, rfl, rfl, ?_, ?_⟩
    · intro n hn; cases hn; exact heq
    · simp
  case _ =>
    split at h
    case _ name heq =>
      cases h
      refine ⟨.GetHost name, rfl, rfl, ?_, ?_⟩
      · intro n hn; cases hn
      · simp
    case _ =>
      split at h
      case _ slot heq =>
        cases h
        refine ⟨.GetLocal slot, rfl, rfl, ?_, ?_⟩
        · intro n hn; cases hn
        · simp
      case _ => exact absurd h (by simp)

/-- `emit_var_write` appends a single write instruction (no targets, and
never a storage read or init). -/
theorem emit_var_write_code {S : SymbolTable} {c c' : Chunk} {id : NodeId}
    {line : Nat} (h : emit_var_write S c id line = some c') :
    ∃ instr, c'.code = c.code ++ [instr] ∧ instr_targets instr = [] ∧
      (∀ name, instr ≠ .GetStorage name) ∧ (∀ name, instr ≠ .InitStorage name) := by
  unfold emit_var_write at h
  split at h
  case _ name heq =>
    cases h
    exact ⟨.SetStorage name, rfl, rfl, by simp, by simp⟩
  case _ =>
    split at h
    case _ slot heq =>
      cases h
      exact ⟨.SetLocal slot, rfl, rfl, by simp, by simp⟩
    case _ => exact absurd h (by simp)

/-- The part-emission loop appends only constant/read instructions; every
emitted `GetStorage` comes from a `VarRef` resolved as a save variable. -/
theorem compile_parts_fold_code {S : SymbolTable} :
    ∀ (ps : List TextPart) (c c' : Chunk),
    compile_parts_fold S c ps = some c' →
    ∃ l, c'.code = c.code ++ l ∧
      (∀ instr ∈ l, instr_targets instr = []) ∧
      (∀ instr ∈ l, ∀ name, instr ≠ .InitStorage name) ∧
      (∀ name, (Instruction.GetStorage name) ∈ l →
        ∃ id ∈ parts_ids ps, get_save_name S id = some name) := by
  intro ps
  induction ps with
  | nil =>
    intro c c' h
    cases h
    exact ⟨[], by simp, by simp, by simp, by simp⟩
  | cons p rest ih =>
    intro c c' h
    cases p with
    | Literal text span =>
      simp only [compile_parts_fold] at h
      obtain ⟨l, hl, ht, hni, hg⟩ := ih _ _ h
      refine ⟨.Constant c.constants.length :: l, ?_, ?_, ?_, ?_⟩
      · rw [hl]; simp [Chunk.emit, Chunk.add_constant]
      · intro instr hinstr
        rcases List.mem_cons.mp hinstr with rfl | hmem
        · rfl
        · exact ht instr hmem
      · intro instr hinstr
        rcases List.mem_cons.mp hinstr with rfl | hmem
        · simp
        · exact hni instr hmem
      · intro name hname
        rcases List.mem_cons.mp hname with heq | hmem
        · exact absurd heq.symm (by simp)
        · obtain ⟨id, hid, hsv⟩ := hg name hmem
          exact ⟨id, by simp [parts_ids, hid], hsv⟩
    | VarRef id vname span =>
      simp only [compile_parts_fold, Option.bind_eq_bind, Option.bind_eq_some] at h
      obtain ⟨c1, h1, h2⟩ := h
      obtain ⟨instr, hinstr, htg, hgs, hnini⟩ := emit_var_read_code h1
      obtain ⟨l, hl, ht, hni, hg⟩ := ih _ _ h2
      refine ⟨instr :: l, ?_, ?_, ?_, ?_⟩
      · rw [hl, hinstr]; simp
      · intro i hi
        rcases List.mem_cons.mp hi with rfl | hmem
        · exact htg
        · exact ht i hmem
      · intro i hi
        rcases List.mem_cons.mp hi with rfl | hmem
        · exact hnini
        · exact hni i hmem
      · intro name hname
        rcases List.mem_cons.mp hname with heq | hmem
        · exact ⟨id, by simp [parts_ids], hgs name heq.symm⟩
        · obtain ⟨id2, hid2, hsv⟩ := hg name hmem
          exact ⟨id2, by simp [parts_ids, hid2], hsv⟩

/-- `compile_text_parts` appends only constant/read/`Concat` instructions;
every emitted `GetStorage` comes from a `VarRef` resolved as a save. -/
theorem compile_text_parts_code {S : SymbolTable} {ps : List TextPart}
    {c c' : Chunk} {line : Nat} (h : compile_text_parts S c ps line = some c') :
    ∃ l, c'.code = c.code ++ l ∧
      (∀ instr ∈ l, instr_targets instr = []) ∧
      (∀ instr ∈ l, ∀ name, instr ≠ .InitStorage name) ∧
      (∀ name, (Instruction.GetStorage name) ∈ l →
        ∃ id ∈ parts_ids ps, get_save_name S id = some name) := by
  unfold compile_text_parts at h
  split at h
  case _ =>
    cases h
    exact ⟨[.Constant c.constants.length], rfl, by simp [instr_targets],
      by simp, by simp⟩
  case _ text span =>
    cases h
    exact ⟨[.Constant c.constants.length], rfl, by simp [instr_targets],
      by simp, by simp [parts_ids]⟩
  case _ hne1 hne2 =>
    simp only [Option.bind_eq_bind, Option.bind_eq_some] at h
    obtain ⟨c1, h1, h2⟩ := h
    obtain ⟨l, hl, ht, hni, hg⟩ := compile_parts_fold_code ps c c1 h1
    split at h2
    case _ =>
      cases h2
      refine ⟨l ++ [.Concat ps.length], by simp [emit_code, hl], ?_, ?_, ?_⟩
      · intro instr hinstr
        rcases List.mem_append.mp hinstr with hmem | hmem
        · exact ht instr hmem
        · simp only [List.mem_singleton] at hmem
          subst hmem; rfl
      · intro instr hinstr
        rcases List.mem_append.mp hinstr with hmem | hmem
        · exact hni instr hmem
        · simp only [List.mem_singleton] at hmem
          subst hmem; simp
      · intro name hname
        rcases List.mem_append.mp hname with hmem | hmem
        · exact hg name hmem
        · simp at hmem
    case _ =>
      cases h2
      exact ⟨l, hl, ht, hni, hg⟩

/-- `compile_choice_texts` likewise. -/
theorem compile_choice_texts_code {S : SymbolTable} :
    ∀ (cs : List Choice) (c c' : Chunk),
    compile_choice_texts S c cs = some c' →
    ∃ l, c'.code = c.code ++ l ∧
      (∀ instr ∈ l, instr_targets instr = []) ∧
      (∀ instr ∈ l, ∀ name, instr ≠ .InitStorage name) ∧
      (∀ name, (Instruction.GetStorage name) ∈ l →
        ∃ id ∈ choices_text_ids cs, get_save_name S id = some name) := by
  intro cs
  induction cs with
  | nil =>
    intro c c' h
    cases h
    exact ⟨[], by simp, by simp, by simp, by simp⟩
  | cons choice rest ih =>
    intro c c' h
    simp only [compile_choice_texts, Option.bind_eq_bind, Option.bind_eq_some] at h
    obtain ⟨c1, h1, h2⟩ := h
    obtain ⟨l1, hl1, ht1, hni1, hg1⟩ := compile_text_parts_code h1
    obtain ⟨l2, hl2, ht2, hni2, hg2⟩ := ih _ _ h2
    refine ⟨l1 ++ l2, by simp [hl2, hl1], ?_, ?_, ?_⟩
    · intro instr hinstr
      rcases List.mem_append.mp hinstr with hmem | hmem
      · exact ht1 instr hmem
      · exact ht2 instr hmem
    · intro instr hinstr
      rcases List.mem_append.mp hinstr with hmem | hmem
      · exact hni1 instr hmem
      · exact hni2 instr hmem
    · intro name hname
      rcases List.mem_append.mp hname with hmem | hmem
      · obtain ⟨id, hid, hsv⟩ := hg1 name hmem
        exact ⟨id, by simp [choices_text_ids, hid], hsv⟩
      · obtain ⟨id, hid, hsv⟩ := hg2 name hmem
        refine ⟨id, ?_, hsv⟩
        simp only [choices_text_ids, List.mem_append]
        exact Or.inr hid

theorem ext_targets_append {c c' : Chunk} (l : List Instruction)
    (h : c'.code = c.code ++ l)
    (hl : ∀ instr ∈ l, ∀ t ∈ instr_targets instr, t = 0) :
    Ext c c' ∧ (TargetsLE c → TargetsLE c') :=
  ⟨ext_of_append l h, targets_le_append h hl⟩

mutual

/-- Every compile step only extends the chunk, preserves the existing
instructions and keeps all jump targets bounded by the code length. -/
theorem compile_stmt_ext (S : SymbolTable) (s : Stmt) :
    ∀ (c c' : Chunk), compile_stmt S c s = some c' →
      Ext c c' ∧ (TargetsLE c → TargetsLE c') := by
  cases s with
  | TempDecl d =>
    intro c c' h
    simp only [compile_stmt] at h
    cases h
    exact ext_targets_append _ (compile_literal_code c d.value d.span.start)
      (by simp [instr_targets])
  | SaveDecl d =>
    intro c c' h
    simp only [compile_stmt] at h
    cases h
    refine ext_targets_append [.Constant c.constants.length, .InitStorage d.name]
      ?_ (by simp [instr_targets])
    simp [emit_code, compile_literal_code]
  | Assignment d =>
    intro c c' h
    simp only [compile_stmt] at h
    obtain ⟨instr, hinstr, htg, _, _⟩ := emit_var_write_code h
    refine ext_targets_append [.Constant c.constants.length, instr] ?_ ?_
    · simp [hinstr, compile_literal_code]
    · intro i hi
      rcases List.mem_cons.mp hi with rfl | hi2
      · simp [instr_targets]
      · simp only [List.mem_singleton] at hi2
        subst hi2
        simp [htg]
  | ExternDecl id name span =>
    intro c c' h
    simp only [compile_stmt] at h
    cases h
    exact ⟨Ext.refl c, fun h => h⟩
  | Line parts span =>
    intro c c' h
    simp only [compile_stmt, Option.bind_eq_bind, Option.bind_eq_some] at h
    obtain ⟨c1, h1, h2⟩ := h
    obtain ⟨l, hl, ht, _, _⟩ := compile_text_parts_code h1
    cases h2
    refine ext_targets_append (l ++ [.Line]) (by simp [emit_code, hl]) ?_
    intro instr hinstr
    rcases List.mem_append.mp hinstr with hmem | hmem
    · simp [ht instr hmem]
    · simp only [List.mem_singleton] at hmem
      subst hmem
      simp [instr_targets]
  | ChoiceSet choices =>
    intro c c' h
    cases choices with
    | nil => simp [compile_stmt] at h
    | cons c0 rest =>
      simp only [compile_stmt, Option.bind_eq_bind, Option.bind_eq_some] at h
      obtain ⟨c1, h1, h2⟩ := h
      obtain ⟨c3ts, h3, h4⟩ := h2
      obtain ⟨c3, ts, js⟩ := c3ts
      obtain ⟨c4, h5, h6⟩ := h4
      obtain ⟨l1, hl1, ht1, _, _⟩ := compile_choice_texts_code (c0 :: rest) c c1 h1
      have hext1 : Ext c c1 := ext_of_append l1 hl1
      have htle1 : TargetsLE c → TargetsLE c1 :=
        targets_le_append hl1 (fun instr hm t ht => by simp [ht1 instr hm] at ht)
      set c2 := c1.emit
        (.ChoiceSet (c0 :: rest).length (List.replicate (c0 :: rest).length 0))
        c0.span.start with hc2
      have hext2 : Ext c1 c2 := ext_emit _ _ _
      have htle2 : TargetsLE c1 → TargetsLE c2 := by
        refine targets_le_append (emit_code _ _ _) ?_
        intro instr hm t ht
        simp only [List.mem_singleton] at hm
        subst hm
        simp only [instr_targets] at ht
        exact List.eq_of_mem_replicate ht
      obtain ⟨hext3, htle3, hts, hjs⟩ := compile_branches_ext S (c0 :: rest) c2
        (c3, ts, js) h3
      have hts' : ∀ t ∈ ts, c2.code.length ≤ t ∧ t ≤ c3.code.length := hts
      have hjs' : ∀ j ∈ js, c2.code.length ≤ j ∧ j < c3.code.length := hjs
      obtain ⟨hlen5, hother5, hmem5, htle5⟩ :=
        patch_jumps_spec js c3 c4 c3.code.length h5
      obtain ⟨hlen6, ⟨cnt, ts0, _, _⟩, hother6⟩ := patch_choice_targets_spec h6
      have hext3' : Ext c2 c3 := hext3
      have htle3' : TargetsLE c2 → TargetsLE c3 := htle3
      have h12 : c.code.length ≤ c1.code.length := hext1.1
      have h23 : c1.code.length + 1 = c2.code.length := (emit_length _ _ _).symm
      have h34 : c2.code.length ≤ c3.code.length := hext3'.1
      constructor
      · -- Ext c c'
        have hcc3 : Ext c c3 := (hext1.trans hext2).trans hext3'
        refine ⟨by omega, ?_⟩
        intro k hk
        have hkjs : k ∉ js := by
          intro hmem
          have := (hjs' k hmem).1
          omega
        have hkcso : k ≠ c1.current_offset := by
          intro heq
          simp only [Chunk.current_offset] at heq
          omega
        rw [hother6 k hkcso, hother5 k hkjs]
        exact hcc3.2 k hk
      · -- TargetsLE
        intro htc
        have htc3 : TargetsLE c3 := htle3' (htle2 (htle1 htc))
        have htc4 : TargetsLE c4 := htle5 le_rfl htc3
        refine targets_le_patch_choice h6 ?_ htc4
        intro t htmem
        have := (hts' t htmem).2
        omega
termination_by structural s

theorem compile_branches_ext (S : SymbolTable) (cs : List Choice) :
    ∀ (c : Chunk) (out : Chunk × List Nat × List Nat),
      compile_branches S c cs = some out →
      Ext c out.1 ∧ (TargetsLE c → TargetsLE out.1) ∧
      (∀ t ∈ out.2.1, c.code.length ≤ t ∧ t ≤ out.1.code.length) ∧
      (∀ j ∈ out.2.2, c.code.length ≤ j ∧ j < out.1.code.length) := by
  cases cs with
  | nil =>
    intro c out h
    simp only [compile_branches] at h
    cases h
    exact ⟨Ext.refl c, fun h => h, by simp, by simp⟩
  | cons choice rest =>
    cases choice with
    | mk parts span nested =>
      intro c out h
      simp only [compile_branches, Option.bind_eq_bind, Option.bind_eq_some] at h
      obtain ⟨u, h1, h2⟩ := h
      obtain ⟨crest, h3, h4⟩ := h2
      obtain ⟨c', ts, js⟩ := crest
      cases h4
      obtain ⟨hextu, htleu⟩ := compile_stmts_ext S nested c u h1
      have hcu : c.code.length ≤ u.code.length := hextu.1
      have hextj : Ext u (u.emit (.Jump 0) span.start) := ext_emit _ _ _
      have htlej : TargetsLE u → TargetsLE (u.emit (.Jump 0) span.start) := by
        refine targets_le_append (emit_code _ _ _) ?_
        intro instr hm t ht
        simp only [List.mem_singleton] at hm
        subst hm
        simpa [instr_targets] using ht
      obtain ⟨hextr, htler, htsr, hjsr⟩ := compile_branches_ext S rest
        (u.emit (.Jump 0) span.start) (c', ts, js) h3
      have htsr' : ∀ t ∈ ts, (u.emit (.Jump 0) span.start).code.length ≤ t ∧
          t ≤ c'.code.length := htsr
      have hjsr' : ∀ j ∈ js, (u.emit (.Jump 0) span.start).code.length ≤ j ∧
          j < c'.code.length := hjsr
      have hjlen : (u.emit (.Jump 0) span.start).code.length = u.code.length + 1 :=
        emit_length _ _ _
      have huc' : (u.emit (.Jump 0) span.start).code.length ≤ c'.code.length :=
        hextr.1
      refine ⟨(hextu.trans hextj).trans hextr, ?_, ?_, ?_⟩
      · intro htc
        exact htler (htlej (htleu htc))
      · dsimp only
        intro t htmem
        rcases List.mem_cons.mp htmem with rfl | hmem
        · exact ⟨le_rfl, by simp only [Chunk.current_offset]; omega⟩
        · have := htsr' t hmem
          exact ⟨by omega, by omega⟩
      · dsimp only
        intro j hjmem
        rcases List.mem_cons.mp hjmem with rfl | hmem
        · exact ⟨hextu.1, by simp only [Chunk.current_offset]; omega⟩
        · have := hjsr' j hmem
          exact ⟨by omega, by omega⟩
termination_by structural cs

theorem compile_stmts_ext (S : SymbolTable) (l : List Stmt) :
    ∀ (c c' : Chunk), compile_stmts S c l = some c' →
      Ext c c' ∧ (TargetsLE c → TargetsLE c') := by
  cases l with
  | nil =>
    intro c c' h
    simp only [compile_stmts] at h
    cases h
    exact ⟨Ext.refl c, fun h => h⟩
  | cons s rest =>
    intro c c' h
    simp only [compile_stmts, Option.bind_eq_bind, Option.bind_eq_some] at h
    obtain ⟨c1, h1, h2⟩ := h
    obtain ⟨hext1, htle1⟩ := compile_stmt_ext S s c c1 h1
    obtain ⟨hext2, htle2⟩ := compile_stmts_ext S rest c1 c' h2
    exact ⟨hext1.trans hext2, fun htc => htle2 (htle1 htc)⟩
termination_by structural l

end

/-- C5: in the chunk produced by a successful compilation, every `Jump`
target and every element of every `ChoiceSet`'s target vector is a valid
instruction index of the same chunk (strictly below `chunk.code.len()`;
the always-appended trailing `Return` makes gather points in range). -/
theorem claim_C5 (script : Script) (S : SymbolTable) (ch : Chunk)
    (h : compile script S = some ch) :
    ∀ i instr, ch.code.get? i = some instr →
      ∀ t ∈ instr_targets instr, t < ch.code.length := by
  unfold compile at h
  simp only [Option.bind_eq_bind, Option.bind_eq_some] at h
  obtain ⟨c1, h1, h2⟩ := h
  cases h2
  obtain ⟨hext, htle⟩ := compile_stmts_ext S script.statements Chunk.new c1 h1
  have htc1 : TargetsLE c1 := by
    refine htle ?_
    intro j instr hj
    simp [Chunk.new] at hj
  intro i instr hi t ht
  rw [emit_code] at hi
  have hlen : (c1.emit .Return 0).code.length = c1.code.length + 1 :=
    emit_length _ _ _
  rcases Nat.lt_or_ge i c1.code.length with hlt | hge
  · rw [List.get?_eq_getElem?, List.getElem?_append_left hlt,
      ← List.get?_eq_getElem?] at hi
    have := htc1 i instr hi t ht
    rw [emit_code]
    simp only [List.length_append, List.length_singleton]
    omega
  · rw [List.get?_eq_getElem?, List.getElem?_append_right hge] at hi
    have : instr = .Return := by
      rcases Nat.lt_or_ge (i - c1.code.length) 1 with h1' | h1'
      · interval_cases h : i - c1.code.length
        · exact (by simpa using hi : Instruction.Return = instr).symm
      · rw [List.getElem?_eq_none (by simpa using h1')] at hi
        exact Option.noConfusion hi
    subst this
    simp [instr_targets] at ht

/-- Witness for C5 on the compiled C2 script: the `ChoiceSet` at index 2
has its targets 3 and 5 inside the 12-instruction chunk. -/
theorem claim_C5_witness :
    compile c2_ast c2_syms = some c2_chunk ∧
    c2_chunk.code.get? 2 = some (.ChoiceSet 2 [3, 5]) ∧
    ∀ t ∈ instr_targets (.ChoiceSet 2 [3, 5]), t < c2_chunk.code.length :=
  ⟨c2_compile_eq, rfl,
    claim_C5 c2_ast c2_syms c2_chunk c2_compile_eq 2 (.ChoiceSet 2 [3, 5]) rfl⟩

theorem getD_mem_of_lt {l : List Nat} {i : Nat} (h : i < l.length) :
    l.getD i 0 ∈ l := by
  rw [List.getD_eq_getElem l 0 h]
  exact List.getElem_mem h

/-- Characterization of step 3 of the lowering: branch starts, branch
regions (each the compilation of that choice's nested statements) and the
placeholder jumps, in increasing offset order. -/
theorem compile_branches_spec (S : SymbolTable) :
    ∀ (cs : List Choice) (c c' : Chunk) (ts js : List Nat),
    compile_branches S c cs = some (c', ts, js) →
    ts.length = cs.length ∧ js.length = cs.length ∧
    (∀ i, i < cs.length →
      (∃ t u : Chunk, compile_stmts S t (cs.getD i default).nested = some u ∧
        ts.getD i 0 = t.code.length ∧ js.getD i 0 = u.code.length ∧
        ∀ k, ts.getD i 0 ≤ k → k < js.getD i 0 → c'.code.get? k = u.code.get? k) ∧
      c'.code.get? (js.getD i 0) = some (.Jump 0) ∧
      ts.getD i 0 ≤ js.getD i 0) ∧
    (∀ i j, i < j → j < cs.length → js.getD i 0 < ts.getD j 0) := by
  intro cs
  induction cs with
  | nil =>
    intro c c' ts js h
    simp only [compile_branches] at h
    cases h
    exact ⟨rfl, rfl, by simp, by simp⟩
  | cons choice rest ih =>
    cases choice with
    | mk parts span nested =>
      intro c c' ts js h
      simp only [compile_branches, Option.bind_eq_bind, Option.bind_eq_some] at h
      obtain ⟨u, h1, h2⟩ := h
      obtain ⟨crest, h3, h4⟩ := h2
      obtain ⟨c2, ts', js'⟩ := crest
      simp only [Option.pure_def, Option.some.injEq, Prod.mk.injEq] at h4
      obtain ⟨h4a, h4b, h4c⟩ := h4
      subst h4a h4b h4c
      obtain ⟨hlen1, hlen2, hfacts, hord⟩ := ih (u.emit (.Jump 0) span.start) c2 ts' js' h3
      obtain ⟨hextr, _, htsr, hjsr⟩ := compile_branches_ext S rest
        (u.emit (.Jump 0) span.start) (c2, ts', js') h3
      have htsr' : ∀ t ∈ ts', (u.emit (.Jump 0) span.start).code.length ≤ t ∧
          t ≤ c2.code.length := htsr
      have hulen : (u.emit (.Jump 0) span.start).code.length = u.code.length + 1 :=
        emit_length _ _ _
      have hcu : c.code.length ≤ u.code.length := (compile_stmts_ext S nested c u h1).1.1
      refine ⟨by simp [hlen1], by simp [hlen2], ?_, ?_⟩
      · intro i hi
        cases i with
        | zero =>
          simp only [List.getD_cons_zero, Chunk.current_offset]
          refine ⟨⟨c, u, by simpa using h1, rfl, rfl, ?_⟩, ?_, hcu⟩
          · intro k hk1 hk2
            rw [hextr.2 k (by omega)]
            rw [emit_code, List.get?_eq_getElem?, List.getElem?_append_left hk2,
              ← List.get?_eq_getElem?]
          · rw [hextr.2 u.code.length (by omega)]
            exact emit_get_last u (.Jump 0) span.start
        | succ i =>
          have hi' : i < rest.length := by simpa using hi
          obtain ⟨hbranch, hjump, hle⟩ := hfacts i hi'
          simp only [List.getD_cons_succ]
          exact ⟨by simpa using hbranch, hjump, hle⟩
      · intro i j hij hj
        cases j with
        | zero => omega
        | succ j =>
          have hj' : j < rest.length := by simpa using hj
          cases i with
          | zero =>
            simp only [List.getD_cons_zero, List.getD_cons_succ, Chunk.current_offset]
            have hmem : ts'.getD j 0 ∈ ts' := getD_mem_of_lt (by omega)
            have := (htsr' _ hmem).1
            omega
          | succ i =>
            simp only [List.getD_cons_succ]
            exact hord i j (by omega) hj'

/-- C4: the two-phase `ChoiceSet` lowering is correct.  For every choice
set and valid index `i`, `select_and_continue(i)` continues execution at
the recorded start of the i-th branch; the code from there to the branch's
trailing `Jump` is exactly the compilation of the i-th choice's nested
statements; that `Jump` goes to the gather point (the instruction slot
following the lowered set, where the surrounding sequence continues); and
an empty nested body jumps straight to the gather with nothing (in
particular no `Line`) in between. -/
theorem claim_C4 (S : SymbolTable) (c : Chunk) (choices : List Choice)
    (c' : Chunk) (h : compile_stmt S c (.ChoiceSet choices) = some c') :
    C4Concl S choices c' := by
  cases choices with
  | nil => simp [compile_stmt] at h
  | cons c0 rest =>
    simp only [compile_stmt, Option.bind_eq_bind, Option.bind_eq_some] at h
    obtain ⟨c1, h1, h2⟩ := h
    obtain ⟨c3ts, h3, h4⟩ := h2
    obtain ⟨c3, ts, js⟩ := c3ts
    obtain ⟨c4, h5, h6⟩ := h4
    have hcount : (c0 :: rest).length = rest.length + 1 := rfl
    obtain ⟨hlents, hlenjs, hfacts, hord⟩ :=
      compile_branches_spec S (c0 :: rest)
        (c1.emit (.ChoiceSet (c0 :: rest).length
          (List.replicate (c0 :: rest).length 0)) c0.span.start) c3 ts js h3
    obtain ⟨hextb, _, htsb, hjsb⟩ := compile_branches_ext S (c0 :: rest)
      (c1.emit (.ChoiceSet (c0 :: rest).length
        (List.replicate (c0 :: rest).length 0)) c0.span.start) (c3, ts, js) h3
    have hc2len : (c1.emit (.ChoiceSet (c0 :: rest).length
        (List.replicate (c0 :: rest).length 0)) c0.span.start).code.length =
        c1.code.length + 1 := emit_length _ _ _
    have htsb' : ∀ t ∈ ts, c1.code.length + 1 ≤ t ∧ t ≤ c3.code.length := by
      intro t ht
      have h := htsb t ht
      dsimp only at h
      rw [hc2len] at h
      constructor <;> omega
    have hjsb' : ∀ j ∈ js, c1.code.length + 1 ≤ j ∧ j < c3.code.length := by
      intro j hj
      have h := hjsb j hj
      dsimp only at h
      rw [hc2len] at h
      constructor <;> omega
    obtain ⟨hlen5, hother5, hmem5, _⟩ := patch_jumps_spec js c3 c4 c3.code.length h5
    have hcso4 : c4.code.get? c1.current_offset =
        some (.ChoiceSet (c0 :: rest).length
          (List.replicate (c0 :: rest).length 0)) := by
      rw [hother5 _ ?_]
      · rw [hextb.2 c1.current_offset
          (by simp only [Chunk.current_offset, emit_length]; omega)]
        exact emit_get_last c1 _ _
      · intro hmem
        have := (hjsb' _ hmem).1
        simp only [Chunk.current_offset] at this
        omega
    obtain ⟨hlen6, ⟨cnt, ts0, hcnt4, hcso'⟩, hother6⟩ := patch_choice_targets_spec h6
    rw [hcso4] at hcnt4
    have hcnt : cnt = (c0 :: rest).length := by
      injection hcnt4 with heq
      injection heq with heq1 heq2
      exact heq1.symm
    subst hcnt
    have hglen : c'.code.length = c3.code.length := by omega
    refine ⟨c1.current_offset, ts, js, hcso', hlents, hlenjs, ?_⟩
    intro i hi
    obtain ⟨⟨t, u, hcomp, htsi, hjsi, hregion⟩, hjump3, hle⟩ := hfacts i hi
    have htsmem : ts.getD i 0 ∈ ts := getD_mem_of_lt (by omega)
    have hjsmem : js.getD i 0 ∈ js := getD_mem_of_lt (by omega)
    have htsib := htsb' _ htsmem
    have hjsib := hjsb' _ hjsmem
    have hregion' : ∀ k, ts.getD i 0 ≤ k → k < js.getD i 0 →
        c'.code.get? k = u.code.get? k := by
      intro k hk1 hk2
      have hkcso : k ≠ c1.current_offset := by
        simp only [Chunk.current_offset]
        omega
      have hkjs : k ∉ js := by
        intro hmem
        obtain ⟨n, hn, hjn⟩ := List.mem_iff_getElem.mp hmem
        have hjn' : js.getD n 0 = k := by
          rw [List.getD_eq_getElem js 0 hn]
          exact hjn
        rcases Nat.lt_trichotomy n i with hni | hni | hni
        · have := hord n i hni hi
          obtain ⟨_, _, hlen⟩ := hfacts n (by omega)
          omega
        · subst hni
          omega
        · have h1' := hord i n hni (by omega)
          obtain ⟨_, _, hlen⟩ := hfacts n (by omega)
          omega
      rw [hother6 k hkcso, hother5 k hkjs]
      exact hregion k hk1 hk2
    have hjump' : c'.code.get? (js.getD i 0) = some (.Jump c'.code.length) := by
      have hkcso : js.getD i 0 ≠ c1.current_offset := by
        simp only [Chunk.current_offset]
        omega
      rw [hother6 _ hkcso, hglen]
      exact hmem5 _ hjsmem
    refine ⟨?_, ⟨t, u, hcomp, htsi, hjsi, hregion'⟩, hjump', ?_⟩
    · intro host fuel stack store
      have htsget : ts.get? i = some (ts.getD i 0) := by
        have hlt : i < ts.length := by omega
        rw [List.getD_eq_getElem ts 0 hlt, List.get?_eq_getElem?,
          List.getElem?_eq_getElem hlt]
      simp only [VM.select_and_continue, hcso']
      rw [if_neg (by omega), htsget]
    · intro hempty
      rw [hempty] at hcomp
      simp only [compile_stmts] at hcomp
      have : t = u := by injection hcomp
      subst this
      have : ts.getD i 0 = js.getD i 0 := by omega
      rw [this]
      exact hjump'

/-- Witness for C4 on the C2 choice set lowered from an empty chunk. -/
theorem claim_C4_witness :
    compile_stmt c2_syms Chunk.new (.ChoiceSet c2_choices) = some c4_out ∧
    C4Concl c2_syms c2_choices c4_out :=
  ⟨by rfl, claim_C4 c2_syms Chunk.new c2_choices c4_out (by rfl)⟩

theorem alist_lookup_append {κ α : Type} [DecidableEq κ]
    {l1 l2 : List (κ × α)} {k : κ} (h : ∀ p ∈ l1, p.1 ≠ k) :
    alist_lookup (l1 ++ l2) k = alist_lookup l2 k := by
  induction l1 with
  | nil => rfl
  | cons p rest ih =>
    have hp : p.1 ≠ k := h p (List.mem_cons_self _ _)
    obtain ⟨a, b⟩ := p
    simp only [List.cons_append, alist_lookup, if_neg hp]
    exact ih (fun q hq => h q (List.mem_cons_of_mem _ hq))

theorem alist_lookup_eq_none {κ α : Type} [DecidableEq κ]
    {l : List (κ × α)} {k : κ} (h : ∀ p ∈ l, p.1 ≠ k) :
    alist_lookup l k = none := by
  induction l with
  | nil => rfl
  | cons p rest ih =>
    have hp : p.1 ≠ k := h p (List.mem_cons_self _ _)
    obtain ⟨a, b⟩ := p
    simp only [alist_lookup, if_neg hp]
    exact ih (fun q hq => h q (List.mem_cons_of_mem _ hq))

theorem get?_lt_of_some {l : List Instruction} {i : Nat} {a : Instruction}
    (h : l.get? i = some a) : i < l.length := by
  by_contra hge
  rw [List.get?_eq_none.mpr (Nat.le_of_not_lt hge)] at h
  exact Option.noConfusion h

theorem hasInit_append {c c' : Chunk} {name : String} (l : List Instruction)
    (h : c'.code = c.code ++ l) (hi : HasInit c name) : HasInit c' name := by
  obtain ⟨i, hget⟩ := hi
  exact ⟨i, ((ext_of_append l h).2 i (get?_lt_of_some hget)).trans hget⟩

theorem goodC_append {c c' : Chunk} (l : List Instruction)
    (h : c'.code = c.code ++ l)
    (hl : ∀ name, Instruction.GetStorage name ∈ l → HasInit c name)
    (hg : GoodC c) : GoodC c' := by
  intro j name hj
  rcases Nat.lt_or_ge j c.code.length with hlt | hge
  · rw [(ext_of_append l h).2 j hlt] at hj
    obtain ⟨i, hij, hinit⟩ := hg j name hj
    exact ⟨i, hij, ((ext_of_append l h).2 i (get?_lt_of_some hinit)).trans hinit⟩
  · rw [h, List.get?_eq_getElem?, List.getElem?_append_right hge] at hj
    have hmem : Instruction.GetStorage name ∈ l := List.getElem?_mem hj
    obtain ⟨i, hinit⟩ := hl name hmem
    have hilt : i < c.code.length := get?_lt_of_some hinit
    exact ⟨i, by omega,
      ((ext_of_append l h).2 i hilt).trans hinit⟩

theorem hasInit_patch_jump {c c' : Chunk} {off t : Nat} {name : String}
    (h : c.patch_jump off t = some c') (hi : HasInit c name) : HasInit c' name := by
  obtain ⟨hlen, hoff, hother, t0, horig⟩ := patch_jump_spec h
  obtain ⟨i, hget⟩ := hi
  refine ⟨i, ?_⟩
  rw [hother i ?_]
  · exact hget
  · intro heq
    rw [heq, horig] at hget
    exact Instruction.noConfusion (Option.some.inj hget)

theorem goodC_patch_jump {c c' : Chunk} {off t : Nat}
    (h : c.patch_jump off t = some c') (hg : GoodC c) : GoodC c' := by
  obtain ⟨hlen, hoff, hother, t0, horig⟩ := patch_jump_spec h
  intro j name hj
  have hjoff : j ≠ off := by
    intro heq
    rw [heq, hoff] at hj
    exact Instruction.noConfusion (Option.some.inj hj)
  rw [hother j hjoff] at hj
  obtain ⟨i, hij, hinit⟩ := hg j name hj
  refine ⟨i, hij, ?_⟩
  rw [hother i ?_]
  · exact hinit
  · intro heq
    rw [heq, horig] at hinit
    exact Instruction.noConfusion (Option.some.inj hinit)

theorem hasInit_patch_jumps : ∀ (offs : List Nat) (c c' : Chunk) (g : Nat)
    (name : String), patch_jumps c offs g = some c' →
    HasInit c name → HasInit c' name := by
  intro offs
  induction offs with
  | nil =>
    intro c c' g name h hi
    cases h
    exact hi
  | cons off rest ih =>
    intro c c' g name h hi
    simp only [patch_jumps, Option.bind_eq_bind, Option.bind_eq_some] at h
    obtain ⟨c1, h1, h2⟩ := h
    exact ih c1 c' g name h2 (hasInit_patch_jump h1 hi)

theorem goodC_patch_jumps : ∀ (offs : List Nat) (c c' : Chunk) (g : Nat),
    patch_jumps c offs g = some c' → GoodC c → GoodC c' := by
  intro offs
  induction offs with
  | nil =>
    intro c c' g h hg
    cases h
    exact hg
  | cons off rest ih =>
    intro c c' g h hg
    simp only [patch_jumps, Option.bind_eq_bind, Option.bind_eq_some] at h
    obtain ⟨c1, h1, h2⟩ := h
    exact ih c1 c' g h2 (goodC_patch_jump h1 hg)

theorem hasInit_patch_choice {c c' : Chunk} {off : Nat} {ts : List Nat}
    {name : String} (h : c.patch_choice_targets off ts = some c')
    (hi : HasInit c name) : HasInit c' name := by
  obtain ⟨hlen, ⟨count, ts0, horig, hoff⟩, hother⟩ := patch_choice_targets_spec h
  obtain ⟨i, hget⟩ := hi
  refine ⟨i, ?_⟩
  rw [hother i ?_]
  · exact hget
  · intro heq
    rw [heq, horig] at hget
    exact Instruction.noConfusion (Option.some.inj hget)

theorem goodC_patch_choice {c c' : Chunk} {off : Nat} {ts : List Nat}
    (h : c.patch_choice_targets off ts = some c') (hg : GoodC c) : GoodC c' := by
  obtain ⟨hlen, ⟨count, ts0, horig, hoff⟩, hother⟩ := patch_choice_targets_spec h
  intro j name hj
  have hjoff : j ≠ off := by
    intro heq
    rw [heq, hoff] at hj
    exact Instruction.noConfusion (Option.some.inj hj)
  rw [hother j hjoff] at hj
  obtain ⟨i, hij, hinit⟩ := hg j name hj
  refine ⟨i, hij, ?_⟩
  rw [hother i ?_]
  · exact hinit
  · intro heq
    rw [heq, horig] at hinit
    exact Instruction.noConfusion (Option.some.inj hinit)

theorem savesInv_of {r : Resolver} {c c' : Chunk}
    (h : ∀ name, HasInit c name → HasInit c' name)
    (hs : SavesInv r c) : SavesInv r c' :=
  fun name hn => h name (hs name hn)

theorem push_scope_save_vars (r : Resolver) :
    r.push_scope.save_vars = r.save_vars := rfl

theorem push_scope_save_bindings (r : Resolver) :
    r.push_scope.save_bindings = r.save_bindings := rfl

theorem pop_scope_save_vars (r : Resolver) :
    r.pop_scope.save_vars = r.save_vars := by
  unfold Resolver.pop_scope
  split <;> rfl

theorem pop_scope_save_bindings (r : Resolver) :
    r.pop_scope.save_bindings = r.save_bindings := by
  unfold Resolver.pop_scope
  split <;> rfl

theorem declare_temp_save_vars (r : Resolver) (id : NodeId) (name : String)
    (span : Span) : (r.declare_temp id name span).save_vars = r.save_vars := by
  unfold Resolver.declare_temp
  split
  · rfl
  · split
    · rfl
    · split
      · rfl
      · split
        · rfl
        · split <;> rfl

theorem declare_temp_save_bindings (r : Resolver) (id : NodeId) (name : String)
    (span : Span) :
    (r.declare_temp id name span).save_bindings = r.save_bindings := by
  unfold Resolver.declare_temp
  split
  · rfl
  · split
    · rfl
    · split
      · rfl
      · split
        · rfl
        · split <;> rfl

theorem declareExtern_save_vars (r : Resolver) (id : NodeId) (name : String)
    (span : Span) : (r.declareExtern id name span).save_vars = r.save_vars := by
  unfold Resolver.declareExtern
  split
  · rfl
  · split
    · rfl
    · split <;> rfl

theorem declareExtern_save_bindings (r : Resolver) (id : NodeId) (name : String)
    (span : Span) :
    (r.declareExtern id name span).save_bindings = r.save_bindings := by
  unfold Resolver.declareExtern
  split
  · rfl
  · split
    · rfl
    · split <;> rfl

theorem declare_save_cases (r : Resolver) (id : NodeId) (name : String)
    (span : Span) :
    ((r.declare_save id name span).save_vars = r.save_vars ∧
     (r.declare_save id name span).save_bindings = r.save_bindings) ∨
    ((r.declare_save id name span).save_vars = (name, span) :: r.save_vars ∧
     (r.declare_save id name span).save_bindings = (id, name) :: r.save_bindings) := by
  unfold Resolver.declare_save
  split
  · exact Or.inl ⟨rfl, rfl⟩
  · split
    · exact Or.inl ⟨rfl, rfl⟩
    · split
      · exact Or.inl ⟨rfl, rfl⟩
      · exact Or.inr ⟨rfl, rfl⟩

theorem resolve_reference_save_vars (r : Resolver) (id : NodeId) (name : String)
    (span : Span) (fw : Bool) :
    (r.resolve_reference id name span fw).save_vars = r.save_vars := by
  unfold Resolver.resolve_reference
  split
  · rfl
  · split
    · rfl
    · split
      · split <;> rfl
      · rfl

theorem resolve_reference_sb (r : Resolver) (id : NodeId) (name : String)
    (span : Span) (fw : Bool) :
    ((r.resolve_reference id name span fw).save_bindings =
        (id, name) :: r.save_bindings ∧
      (alist_lookup r.save_vars name).isSome = true) ∨
    (r.resolve_reference id name span fw).save_bindings = r.save_bindings := by
  unfold Resolver.resolve_reference
  split
  · exact Or.inr rfl
  · split
    case _ hsome => exact Or.inl ⟨rfl, hsome⟩
    · split
      · split <;> exact Or.inr rfl
      · exact Or.inr rfl

theorem resolve_text_parts_sb (parts : List TextPart) : ∀ (r : Resolver),
    ∃ new, (r.resolve_text_parts parts).save_bindings = new ++ r.save_bindings ∧
      ∀ p ∈ new, p.1 ∈ parts_ids parts := by
  induction parts with
  | nil => exact fun r => ⟨[], rfl, by simp⟩
  | cons part rest ih =>
    intro r
    cases part with
    | Literal text span =>
      obtain ⟨new, h1, h2⟩ := ih r
      exact ⟨new, h1, fun p hp => by
        simpa [parts_ids] using h2 p hp⟩
    | VarRef id name span =>
      obtain ⟨new, h1, h2⟩ := ih (r.resolve_reference id name span false)
      rcases resolve_reference_sb r id name span false with ⟨hsb, _⟩ | hsb
      · refine ⟨new ++ [(id, name)], ?_, ?_⟩
        · simp only [Resolver.resolve_text_parts, h1, hsb, List.append_assoc,
            List.singleton_append]
        · intro p hp
          rcases List.mem_append.mp hp with hm | hm
          · exact List.mem_cons_of_mem _ (h2 p hm)
          · simp only [List.mem_singleton] at hm
            subst hm
            exact List.mem_cons_self _ _
      · refine ⟨new, ?_, ?_⟩
        · simp only [Resolver.resolve_text_parts, h1, hsb]
        · exact fun p hp => List.mem_cons_of_mem _ (h2 p hp)

theorem resolve_choice_texts_sb (cs : List Choice) : ∀ (r : Resolver),
    ∃ new, (r.resolve_choice_texts cs).save_bindings = new ++ r.save_bindings ∧
      ∀ p ∈ new, p.1 ∈ choices_text_ids cs := by
  induction cs with
  | nil => exact fun r => ⟨[], rfl, by simp⟩
  | cons choice rest ih =>
    intro r
    obtain ⟨new1, h1, h2⟩ := resolve_text_parts_sb choice.parts r
    obtain ⟨new2, h3, h4⟩ := ih (r.resolve_text_parts choice.parts)
    refine ⟨new2 ++ new1, ?_, ?_⟩
    · simp only [Resolver.resolve_choice_texts, h3, h1, List.append_assoc]
    · intro p hp
      cases choice with
      | mk parts span nested =>
        simp only [choices_text_ids, List.mem_append]
        rcases List.mem_append.mp hp with hm | hm
        · exact Or.inr (h4 p hm)
        · exact Or.inl (h2 p hm)

mutual

theorem resolve_stmt_sb (s : Stmt) : ∀ (r : Resolver),
    ∃ new, (r.resolve_stmt s).save_bindings = new ++ r.save_bindings ∧
      ∀ p ∈ new, p.1 ∈ stmt_ids s := by
  cases s with
  | TempDecl d =>
    intro r
    refine ⟨[], ?_, by simp⟩
    simp only [Resolver.resolve_stmt, declare_temp_save_bindings, List.nil_append]
  | SaveDecl d =>
    intro r
    rcases declare_save_cases r d.id d.name d.span with ⟨_, hsb⟩ | ⟨_, hsb⟩
    · exact ⟨[], by simp [Resolver.resolve_stmt, hsb], by simp⟩
    · refine ⟨[(d.id, d.name)], by simp [Resolver.resolve_stmt, hsb], ?_⟩
      intro p hp
      simp only [List.mem_singleton] at hp
      subst hp
      simp [stmt_ids]
  | ExternDecl id name span =>
    intro r
    refine ⟨[], ?_, by simp⟩
    simp only [Resolver.resolve_stmt, declareExtern_save_bindings, List.nil_append]
  | Assignment d =>
    intro r
    rcases resolve_reference_sb r d.id d.name d.span true with ⟨hsb, _⟩ | hsb
    · refine ⟨[(d.id, d.name)], by simp [Resolver.resolve_stmt, hsb], ?_⟩
      intro p hp
      simp only [List.mem_singleton] at hp
      subst hp
      simp [stmt_ids]
    · exact ⟨[], by simp [Resolver.resolve_stmt, hsb], by simp⟩
  | Line parts span =>
    intro r
    obtain ⟨new, h1, h2⟩ := resolve_text_parts_sb parts r
    exact ⟨new, h1, fun p hp => by simpa [stmt_ids] using h2 p hp⟩
  | ChoiceSet choices =>
    intro r
    obtain ⟨new1, h1, h2⟩ := resolve_choice_texts_sb choices r
    obtain ⟨new2, h3, h4⟩ := resolve_branches_sb choices
      (r.resolve_choice_texts choices)
    refine ⟨new2 ++ new1, ?_, ?_⟩
    · simp only [Resolver.resolve_stmt, h3, h1, List.append_assoc]
    · intro p hp
      simp only [stmt_ids, List.mem_append]
      rcases List.mem_append.mp hp with hm | hm
      · exact Or.inr (h4 p hm)
      · exact Or.inl (h2 p hm)
termination_by structural s

theorem resolve_branches_sb (cs : List Choice) : ∀ (r : Resolver),
    ∃ new, (Resolver.resolve_branches r cs).save_bindings =
        new ++ r.save_bindings ∧
      ∀ p ∈ new, p.1 ∈ choices_nested_ids cs := by
  cases cs with
  | nil => exact fun r => ⟨[], rfl, by simp⟩
  | cons choice rest =>
    cases choice with
    | mk parts span nested =>
      intro r
      obtain ⟨new1, h1, h2⟩ := resolve_stmts_sb nested r.push_scope
      obtain ⟨new2, h3, h4⟩ := resolve_branches_sb rest
        (Resolver.pop_scope (Resolver.resolve_stmts r.push_scope nested))
      refine ⟨new2 ++ new1, ?_, ?_⟩
      · simp only [Resolver.resolve_branches, h3, pop_scope_save_bindings, h1,
          push_scope_save_bindings, List.append_assoc]
      · intro p hp
        simp only [choices_nested_ids, List.mem_append]
        rcases List.mem_append.mp hp with hm | hm
        · exact Or.inr (h4 p hm)
        · exact Or.inl (h2 p hm)
termination_by structural cs

theorem resolve_stmts_sb (l : List Stmt) : ∀ (r : Resolver),
    ∃ new, (Resolver.resolve_stmts r l).save_bindings = new ++ r.save_bindings ∧
      ∀ p ∈ new, p.1 ∈ stmts_ids l := by
  cases l with
  | nil => exact fun r => ⟨[], rfl, by simp⟩
  | cons s rest =>
    intro r
    obtain ⟨new1, h1, h2⟩ := resolve_stmt_sb s r
    obtain ⟨new2, h3, h4⟩ := resolve_stmts_sb rest (r.resolve_stmt s)
    refine ⟨new2 ++ new1, ?_, ?_⟩
    · simp only [Resolver.resolve_stmts, h3, h1, List.append_assoc]
    · intro p hp
      simp only [stmts_ids, List.mem_append]
      rcases List.mem_append.mp hp with hm | hm
      · exact Or.inr (h4 p hm)
      · exact Or.inl (h2 p hm)
termination_by structural l

end

/-- The per-reference heart of C3: walking a text-part list jointly with
the resolver, each `GetStorage` the compiler emits is for a save name the
resolver had already declared, so its `InitStorage` is already in the
chunk. -/
theorem corr_parts (S : SymbolTable) (parts : List TextPart) :
    ∀ (r : Resolver) (c c' : Chunk) (pre : List (NodeId × String)),
    compile_parts_fold S c parts = some c' →
    S.save_bindings = pre ++ (r.resolve_text_parts parts).save_bindings →
    (∀ p ∈ pre, p.1 ∉ parts_ids parts) →
    (∀ p ∈ r.save_bindings, p.1 ∉ parts_ids parts) →
    (parts_ids parts).Nodup →
    SavesInv r c → GoodC c →
    SavesInv (r.resolve_text_parts parts) c' ∧ GoodC c' := by
  induction parts with
  | nil =>
    intro r c c' pre h _ _ _ _ hs hg
    simp only [compile_parts_fold] at h
    cases h
    exact ⟨hs, hg⟩
  | cons part rest ih =>
    intro r c c' pre h hfin hpre hbefore hnodup hs hg
    cases part with
    | Literal text span =>
      simp only [compile_parts_fold, Chunk.add_constant] at h
      simp only [parts_ids] at hpre hbefore hnodup
      have hcode : ({ c with constants := c.constants ++ [Value.string text] :
            Chunk }.emit (.Constant c.constants.length) span.start).code =
          c.code ++ [.Constant c.constants.length] := rfl
      refine ih r _ c' pre h hfin hpre hbefore hnodup ?_ ?_
      · exact savesInv_of (fun nm => hasInit_append _ hcode) hs
      · exact goodC_append _ hcode (by intro nm hmem; simp at hmem) hg
    | VarRef id name span =>
      simp only [compile_parts_fold, Option.bind_eq_bind, Option.bind_eq_some] at h
      obtain ⟨c1, hemit, hrest⟩ := h
      simp only [parts_ids] at hpre hbefore hnodup
      obtain ⟨hid_notin, hnodup'⟩ := List.nodup_cons.mp hnodup
      obtain ⟨new, hnew, hnewk⟩ :=
        resolve_text_parts_sb rest (r.resolve_reference id name span false)
      have hfin1 : S.save_bindings = pre ++
          (Resolver.resolve_text_parts
            (r.resolve_reference id name span false) rest).save_bindings := hfin
      have hlook : get_save_name S id =
          alist_lookup (r.resolve_reference id name span false).save_bindings id := by
        unfold get_save_name
        rw [hfin1, hnew, ← List.append_assoc]
        refine alist_lookup_append ?_
        intro p hp
        rcases List.mem_append.mp hp with hm | hm
        · intro heq
          exact hpre p hm (heq ▸ List.mem_cons_self _ _)
        · intro heq
          exact hid_notin (heq ▸ hnewk p hm)
      rcases resolve_reference_sb r id name span false with ⟨hsb, hsome⟩ | hsb
      · rw [hsb] at hlook
        simp only [alist_lookup, if_pos rfl] at hlook
        unfold emit_var_read at hemit
        rw [hlook] at hemit
        cases hemit
        have hinit : HasInit c name := hs name hsome
        have hcode : (c.emit (.GetStorage name) span.start).code =
            c.code ++ [.GetStorage name] := rfl
        have hs1 : SavesInv (r.resolve_reference id name span false)
            (c.emit (.GetStorage name) span.start) := by
          intro nm hnm
          rw [resolve_reference_save_vars] at hnm
          exact hasInit_append _ hcode (hs nm hnm)
        have hg1 : GoodC (c.emit (.GetStorage name) span.start) := by
          refine goodC_append _ hcode ?_ hg
          intro nm hmem
          simp only [List.mem_singleton, Instruction.GetStorage.injEq] at hmem
          subst hmem
          exact hinit
        refine ih (r.resolve_reference id name span false) _ c' pre hrest
          hfin1 ?_ ?_ hnodup' hs1 hg1
        · exact fun p hp hm => hpre p hp (List.mem_cons_of_mem _ hm)
        · intro p hp
          rw [hsb] at hp
          rcases List.mem_cons.mp hp with rfl | hm
          · exact hid_notin
          · exact fun hmm => hbefore p hm (List.mem_cons_of_mem _ hmm)
      · rw [hsb] at hlook
        rw [alist_lookup_eq_none
          (fun p hp heq => hbefore p hp (heq ▸ List.mem_cons_self _ _))] at hlook
        unfold emit_var_read at hemit
        rw [hlook] at hemit
        have hnext : ∀ (instr : Instruction),
            c1 = c.emit instr span.start →
            (∀ nm, instr ≠ .GetStorage nm) →
            SavesInv (Resolver.resolve_text_parts
              (r.resolve_reference id name span false) rest) c' ∧ GoodC c' := by
          intro instr hc1 hinstr
          have hcode : (c.emit instr span.start).code = c.code ++ [instr] := rfl
          have hs1 : SavesInv (r.resolve_reference id name span false) c1 := by
            intro nm hnm
            rw [resolve_reference_save_vars] at hnm
            rw [hc1]
            exact hasInit_append _ hcode (hs nm hnm)
          have hg1 : GoodC c1 := by
            rw [hc1]
            refine goodC_append _ hcode ?_ hg
            intro nm hmem
            simp only [List.mem_singleton] at hmem
            exact absurd hmem.symm (hinstr nm)
          refine ih (r.resolve_reference id name span false) c1 c' pre hrest
            hfin1 ?_ ?_ hnodup' hs1 hg1
          · exact fun p hp hm => hpre p hp (List.mem_cons_of_mem _ hm)
          · intro p hp
            rw [hsb] at hp
            exact fun hm => hbefore p hp (List.mem_cons_of_mem _ hm)
        rcases hext : get_extern_name S id with _ | nm
        · rcases hslot : get_slot S id with _ | slot
          · rw [hext, hslot] at hemit
            cases hemit
          · rw [hext, hslot] at hemit
            cases hemit
            exact hnext (.GetLocal slot) rfl (by intro nm2 h2; cases h2)
        · rw [hext] at hemit
          cases hemit
          exact hnext (.GetHost nm) rfl (by intro nm2 h2; cases h2)

theorem corr_text_parts (S : SymbolTable) (parts : List TextPart) (line : Nat)
    (r : Resolver) (c c' : Chunk) (pre : List (NodeId × String))
    (h : compile_text_parts S c parts line = some c')
    (hfin : S.save_bindings = pre ++ (r.resolve_text_parts parts).save_bindings)
    (hpre : ∀ p ∈ pre, p.1 ∉ parts_ids parts)
    (hbefore : ∀ p ∈ r.save_bindings, p.1 ∉ parts_ids parts)
    (hnodup : (parts_ids parts).Nodup)
    (hs : SavesInv r c) (hg : GoodC c) :
    SavesInv (r.resolve_text_parts parts) c' ∧ GoodC c' := by
  have hgen : ∀ (c1 : Chunk),
      compile_parts_fold S c parts = some c1 →
      (c' = c1 ∨ ∃ n, c' = c1.emit (.Concat n) line) →
      SavesInv (r.resolve_text_parts parts) c' ∧ GoodC c' := by
    intro c1 h1 h2
    obtain ⟨hs1, hg1⟩ := corr_parts S parts r c c1 pre h1 hfin hpre hbefore
      hnodup hs hg
    rcases h2 with rfl | ⟨n, rfl⟩
    · exact ⟨hs1, hg1⟩
    · constructor
      · exact savesInv_of (fun nm => hasInit_append [.Concat n] rfl) hs1
      · exact goodC_append [.Concat n] rfl (by intro nm hmem; simp at hmem) hg1
  have hconst : ∀ (v : String),
      c' = ({ c with constants := c.constants ++ [Value.string v] :
          Chunk }.emit (.Constant c.constants.length) line) →
      SavesInv r c' ∧ GoodC c' := by
    intro v hc'
    subst hc'
    constructor
    · exact savesInv_of (fun nm => hasInit_append [.Constant c.constants.length]
        rfl) hs
    · exact goodC_append [.Constant c.constants.length] rfl
        (by intro nm hmem; simp at hmem) hg
  match parts, h with
  | [], h =>
    simp only [compile_text_parts, Chunk.add_constant] at h
    cases h
    exact hconst "" rfl
  | [.Literal text sp], h =>
    simp only [compile_text_parts, Chunk.add_constant] at h
    cases h
    exact hconst text rfl
  | .Literal t1 s1 :: q :: qs, h =>
    simp only [compile_text_parts, Option.bind_eq_bind, Option.bind_eq_some] at h
    obtain ⟨c1, h1, h2⟩ := h
    refine hgen c1 h1 ?_
    split at h2
    · simp only [Option.pure_def, Option.some.injEq] at h2
      exact Or.inr ⟨_, h2.symm⟩
    · simp only [Option.pure_def, Option.some.injEq] at h2
      exact Or.inl h2.symm
  | .VarRef id nm sp :: qs, h =>
    simp only [compile_text_parts, Option.bind_eq_bind, Option.bind_eq_some] at h
    obtain ⟨c1, h1, h2⟩ := h
    refine hgen c1 h1 ?_
    split at h2
    · simp only [Option.pure_def, Option.some.injEq] at h2
      exact Or.inr ⟨_, h2.symm⟩
    · simp only [Option.pure_def, Option.some.injEq] at h2
      exact Or.inl h2.symm

theorem corr_choice_texts (S : SymbolTable) (cs : List Choice) :
    ∀ (r : Resolver) (c c' : Chunk) (pre : List (NodeId × String)),
    compile_choice_texts S c cs = some c' →
    S.save_bindings = pre ++ (r.resolve_choice_texts cs).save_bindings →
    (∀ p ∈ pre, p.1 ∉ choices_text_ids cs) →
    (∀ p ∈ r.save_bindings, p.1 ∉ choices_text_ids cs) →
    (choices_text_ids cs).Nodup →
    SavesInv r c → GoodC c →
    SavesInv (r.resolve_choice_texts cs) c' ∧ GoodC c' := by
  induction cs with
  | nil =>
    intro r c c' pre h _ _ _ _ hs hg
    simp only [compile_choice_texts] at h
    cases h
    exact ⟨hs, hg⟩
  | cons choice rest ih =>
    intro r c c' pre h hfin hpre hbefore hnodup hs hg
    simp only [compile_choice_texts, Option.bind_eq_bind, Option.bind_eq_some] at h
    obtain ⟨c1, h1, h2⟩ := h
    have hids : choices_text_ids (choice :: rest) =
        parts_ids choice.parts ++ choices_text_ids rest := by
      cases choice with
      | mk parts span nested => rfl
    rw [hids] at hpre hbefore hnodup
    obtain ⟨hnodup1, hnodup2, hdisj⟩ := List.nodup_append.mp hnodup
    obtain ⟨newRest, hnewRest, hnewRestK⟩ :=
      resolve_choice_texts_sb rest (r.resolve_text_parts choice.parts)
    have hfin1 : S.save_bindings = (pre ++ newRest) ++
        (r.resolve_text_parts choice.parts).save_bindings := by
      have : S.save_bindings = pre ++ (Resolver.resolve_choice_texts
          (r.resolve_text_parts choice.parts) rest).save_bindings := hfin
      rw [this, hnewRest, List.append_assoc]
    obtain ⟨newHead, hnewHead, hnewHeadK⟩ :=
      resolve_text_parts_sb choice.parts r
    have hpre1 : ∀ p ∈ pre ++ newRest, p.1 ∉ parts_ids choice.parts := by
      intro p hp
      rcases List.mem_append.mp hp with hm | hm
      · exact fun hmm => hpre p hm (List.mem_append_left _ hmm)
      · exact fun hmm => hdisj hmm (hnewRestK p hm)
    have hbefore1 : ∀ p ∈ r.save_bindings, p.1 ∉ parts_ids choice.parts :=
      fun p hp hm => hbefore p hp (List.mem_append_left _ hm)
    obtain ⟨hs1, hg1⟩ := corr_text_parts S choice.parts choice.span.start r c c1
      (pre ++ newRest) h1 hfin1 hpre1 hbefore1 hnodup1 hs hg
    refine ih (r.resolve_text_parts choice.parts) c1 c' pre h2 hfin ?_ ?_
      hnodup2 hs1 hg1
    · exact fun p hp hm => hpre p hp (List.mem_append_right _ hm)
    · intro p hp
      rw [hnewHead] at hp
      rcases List.mem_append.mp hp with hm | hm
      · exact fun hmm => hdisj (hnewHeadK p hm) hmm
      · exact fun hmm => hbefore p hm (List.mem_append_right _ hmm)

mutual

/-- The C3 induction: compiling a statement in sync with resolving it
preserves the save-name invariant and the ordered `GetStorage` guard. -/
theorem corr_stmt (S : SymbolTable) (s : Stmt) :
    ∀ (r : Resolver) (c c' : Chunk) (pre : List (NodeId × String)),
    compile_stmt S c s = some c' →
    S.save_bindings = pre ++ (r.resolve_stmt s).save_bindings →
    (∀ p ∈ pre, p.1 ∉ stmt_ids s) →
    (∀ p ∈ r.save_bindings, p.1 ∉ stmt_ids s) →
    (stmt_ids s).Nodup →
    SavesInv r c → GoodC c →
    SavesInv (r.resolve_stmt s) c' ∧ GoodC c' := by
  cases s with
  | TempDecl d =>
    intro r c c' pre h hfin hpre hbefore hnodup hs hg
    simp only [compile_stmt] at h
    cases h
    constructor
    · intro nm hnm
      simp only [Resolver.resolve_stmt, declare_temp_save_vars] at hnm
      exact hasInit_append _ (compile_literal_code c d.value d.span.start)
        (hs nm hnm)
    · exact goodC_append _ (compile_literal_code c d.value d.span.start)
        (by intro nm hmem; simp at hmem) hg
  | SaveDecl d =>
    intro r c c' pre h hfin hpre hbefore hnodup hs hg
    simp only [compile_stmt] at h
    cases h
    have hcode : ((compile_literal c d.value d.span.start).emit
        (.InitStorage d.name) d.span.start).code =
        c.code ++ [.Constant c.constants.length, .InitStorage d.name] := by
      simp [emit_code, compile_literal_code]
    have hinitmem : HasInit ((compile_literal c d.value d.span.start).emit
        (.InitStorage d.name) d.span.start) d.name := by
      refine ⟨c.code.length + 1, ?_⟩
      rw [hcode, List.get?_eq_getElem?, List.getElem?_append_right (by omega)]
      simp
    constructor
    · intro nm hnm
      simp only [Resolver.resolve_stmt] at hnm
      rcases declare_save_cases r d.id d.name d.span with ⟨hsv, _⟩ | ⟨hsv, _⟩
      · rw [hsv] at hnm
        exact hasInit_append _ hcode (hs nm hnm)
      · rw [hsv] at hnm
        by_cases heq : d.name = nm
        · exact heq ▸ hinitmem
        · simp only [alist_lookup, if_neg heq] at hnm
          exact hasInit_append _ hcode (hs nm hnm)
    · exact goodC_append _ hcode (by intro nm hmem; simp at hmem) hg
  | ExternDecl id0 name0 span0 =>
    intro r c c' pre h hfin hpre hbefore hnodup hs hg
    simp only [compile_stmt] at h
    cases h
    constructor
    · intro nm hnm
      simp only [Resolver.resolve_stmt, declareExtern_save_vars] at hnm
      exact hs nm hnm
    · exact hg
  | Assignment d =>
    intro r c c' pre h hfin hpre hbefore hnodup hs hg
    simp only [compile_stmt] at h
    have hnext : ∀ (instr : Instruction),
        c' = (compile_literal c d.value d.span.start).emit instr d.span.start →
        (∀ nm, instr ≠ .GetStorage nm) →
        SavesInv (r.resolve_stmt (.Assignment d)) c' ∧ GoodC c' := by
      intro instr hc' hinstr
      have hcode : ((compile_literal c d.value d.span.start).emit instr
          d.span.start).code = c.code ++ [.Constant c.constants.length, instr] := by
        simp [emit_code, compile_literal_code]
      subst hc'
      constructor
      · intro nm hnm
        simp only [Resolver.resolve_stmt, resolve_reference_save_vars] at hnm
        exact hasInit_append _ hcode (hs nm hnm)
      · refine goodC_append _ hcode ?_ hg
        intro nm hmem
        rcases List.mem_cons.mp hmem with heq | hmem2
        · cases heq
        · simp only [List.mem_singleton] at hmem2
          exact absurd hmem2.symm (hinstr nm)
    unfold emit_var_write at h
    rcases hsv0 : get_save_name S d.id with _ | nm
    · rcases hslot : get_slot S d.id with _ | slot
      · rw [hsv0, hslot] at h
        cases h
      · rw [hsv0, hslot] at h
        cases h
        exact hnext (.SetLocal slot) rfl (by intro nm2 h2; cases h2)
    · rw [hsv0] at h
      cases h
      exact hnext (.SetStorage nm) rfl (by intro nm2 h2; cases h2)
  | Line parts span =>
    intro r c c' pre h hfin hpre hbefore hnodup hs hg
    simp only [compile_stmt, Option.bind_eq_bind, Option.bind_eq_some] at h
    obtain ⟨c1, h1, h2⟩ := h
    simp only [Option.pure_def, Option.some.injEq] at h2
    simp only [stmt_ids] at hpre hbefore hnodup
    obtain ⟨hs1, hg1⟩ := corr_text_parts S parts span.start r c c1 pre h1 hfin
      hpre hbefore hnodup hs hg
    subst h2
    constructor
    · exact savesInv_of (fun nm => hasInit_append [.Line] rfl) hs1
    · exact goodC_append [.Line] rfl (by intro nm hmem; simp at hmem) hg1
  | ChoiceSet choices =>
    intro r c c' pre h hfin hpre hbefore hnodup hs hg
    cases choices with
    | nil => simp [compile_stmt] at h
    | cons c0 rest =>
      simp only [compile_stmt, Option.bind_eq_bind, Option.bind_eq_some] at h
      obtain ⟨c1, h1, h2⟩ := h
      obtain ⟨c3ts, h3, h4⟩ := h2
      obtain ⟨c3, ts, js⟩ := c3ts
      obtain ⟨c4, h5, h6⟩ := h4
      simp only [stmt_ids] at hpre hbefore hnodup
      obtain ⟨hnodupT, hnodupN, hdisj⟩ := List.nodup_append.mp hnodup
      obtain ⟨newBr, hnewBr, hnewBrK⟩ :=
        resolve_branches_sb (c0 :: rest) (r.resolve_choice_texts (c0 :: rest))
      have hfinT : S.save_bindings = (pre ++ newBr) ++
          (r.resolve_choice_texts (c0 :: rest)).save_bindings := by
        have h0 : S.save_bindings = pre ++ (Resolver.resolve_branches
            (r.resolve_choice_texts (c0 :: rest)) (c0 :: rest)).save_bindings :=
          hfin
        rw [h0, hnewBr, List.append_assoc]
      have hpreT : ∀ p ∈ pre ++ newBr, p.1 ∉ choices_text_ids (c0 :: rest) := by
        intro p hp
        rcases List.mem_append.mp hp with hm | hm
        · exact fun hmm => hpre p hm (List.mem_append_left _ hmm)
        · exact fun hmm => hdisj hmm (hnewBrK p hm)
      have hbeforeT : ∀ p ∈ r.save_bindings,
          p.1 ∉ choices_text_ids (c0 :: rest) :=
        fun p hp hm => hbefore p hp (List.mem_append_left _ hm)
      obtain ⟨hsT, hgT⟩ := corr_choice_texts S (c0 :: rest) r c c1 (pre ++ newBr)
        h1 hfinT hpreT hbeforeT hnodupT hs hg
      have hsT2 : SavesInv (r.resolve_choice_texts (c0 :: rest))
          (c1.emit (.ChoiceSet (c0 :: rest).length
            (List.replicate (c0 :: rest).length 0)) c0.span.start) :=
        savesInv_of (fun nm => hasInit_append _ rfl) hsT
      have hgT2 : GoodC (c1.emit (.ChoiceSet (c0 :: rest).length
          (List.replicate (c0 :: rest).length 0)) c0.span.start) :=
        goodC_append _ rfl (by intro nm hmem; simp at hmem) hgT
      obtain ⟨newT, hnewT, hnewTK⟩ := resolve_choice_texts_sb (c0 :: rest) r
      have hpreN : ∀ p ∈ pre, p.1 ∉ choices_nested_ids (c0 :: rest) :=
        fun p hp hm => hpre p hp (List.mem_append_right _ hm)
      have hbeforeN : ∀ p ∈ (r.resolve_choice_texts (c0 :: rest)).save_bindings,
          p.1 ∉ choices_nested_ids (c0 :: rest) := by
        intro p hp
        rw [hnewT] at hp
        rcases List.mem_append.mp hp with hm | hm
        · exact hdisj (hnewTK p hm)
        · exact fun hmm => hbefore p hm (List.mem_append_right _ hmm)
      have hfinN : S.save_bindings = pre ++ (Resolver.resolve_branches
          (r.resolve_choice_texts (c0 :: rest)) (c0 :: rest)).save_bindings := hfin
      obtain ⟨hsN, hgN⟩ := corr_branches S (c0 :: rest)
        (r.resolve_choice_texts (c0 :: rest))
        (c1.emit (.ChoiceSet (c0 :: rest).length
          (List.replicate (c0 :: rest).length 0)) c0.span.start)
        (c3, ts, js) pre h3 hfinN hpreN hbeforeN hnodupN hsT2 hgT2
      have hs4 : SavesInv (Resolver.resolve_branches
          (r.resolve_choice_texts (c0 :: rest)) (c0 :: rest)) c4 :=
        savesInv_of (fun nm => hasInit_patch_jumps js c3 c4 c3.current_offset nm h5)
          hsN
      have hg4 : GoodC c4 := goodC_patch_jumps js c3 c4 c3.current_offset h5 hgN
      exact ⟨savesInv_of (fun nm => hasInit_patch_choice h6) hs4,
        goodC_patch_choice h6 hg4⟩
termination_by structural s

theorem corr_branches (S : SymbolTable) (cs : List Choice) :
    ∀ (r : Resolver) (c : Chunk) (out : Chunk × List Nat × List Nat)
      (pre : List (NodeId × String)),
    compile_branches S c cs = some out →
    S.save_bindings = pre ++ (Resolver.resolve_branches r cs).save_bindings →
    (∀ p ∈ pre, p.1 ∉ choices_nested_ids cs) →
    (∀ p ∈ r.save_bindings, p.1 ∉ choices_nested_ids cs) →
    (choices_nested_ids cs).Nodup →
    SavesInv r c → GoodC c →
    SavesInv (Resolver.resolve_branches r cs) out.1 ∧ GoodC out.1 := by
  cases cs with
  | nil =>
    intro r c out pre h hfin hpre hbefore hnodup hs hg
    simp only [compile_branches] at h
    cases h
    exact ⟨hs, hg⟩
  | cons choice rest =>
    cases choice with
    | mk parts span nested =>
      intro r c out pre h hfin hpre hbefore hnodup hs hg
      simp only [compile_branches, Option.bind_eq_bind, Option.bind_eq_some] at h
      obtain ⟨u, h1, h2⟩ := h
      obtain ⟨crest, h3, h4⟩ := h2
      obtain ⟨cR, ts, js⟩ := crest
      simp only [Option.pure_def, Option.some.injEq] at h4
      subst h4
      simp only [choices_nested_ids] at hpre hbefore hnodup
      obtain ⟨hnodup1, hnodup2, hdisj⟩ := List.nodup_append.mp hnodup
      obtain ⟨newR, hnewR, hnewRK⟩ := resolve_branches_sb rest
        (Resolver.pop_scope (Resolver.resolve_stmts r.push_scope nested))
      have hfin1 : S.save_bindings = (pre ++ newR) ++
          (Resolver.resolve_stmts r.push_scope nested).save_bindings := by
        have h0 : S.save_bindings = pre ++ (Resolver.resolve_branches
            (Resolver.pop_scope (Resolver.resolve_stmts r.push_scope nested))
            rest).save_bindings := hfin
        rw [h0, hnewR, pop_scope_save_bindings, List.append_assoc]
      have hpre1 : ∀ p ∈ pre ++ newR, p.1 ∉ stmts_ids nested := by
        intro p hp
        rcases List.mem_append.mp hp with hm | hm
        · exact fun hmm => hpre p hm (List.mem_append_left _ hmm)
        · exact fun hmm => hdisj hmm (hnewRK p hm)
      have hbefore1 : ∀ p ∈ (r.push_scope).save_bindings,
          p.1 ∉ stmts_ids nested := by
        rw [push_scope_save_bindings]
        exact fun p hp hm => hbefore p hp (List.mem_append_left _ hm)
      have hs1 : SavesInv r.push_scope c :=
        fun nm hnm => hs nm (by rwa [push_scope_save_vars] at hnm)
      obtain ⟨hs2, hg2⟩ := corr_stmts S nested r.push_scope c u (pre ++ newR)
        h1 hfin1 hpre1 hbefore1 hnodup1 hs1 hg
      have hs3 : SavesInv (Resolver.pop_scope
          (Resolver.resolve_stmts r.push_scope nested))
          (u.emit (.Jump 0) span.start) :=
        fun nm hnm => hasInit_append _ rfl
          (hs2 nm (by rwa [pop_scope_save_vars] at hnm))
      have hg3 : GoodC (u.emit (.Jump 0) span.start) :=
        goodC_append _ rfl (by intro nm hmem; simp at hmem) hg2
      have hfin2 : S.save_bindings = pre ++ (Resolver.resolve_branches
          (Resolver.pop_scope (Resolver.resolve_stmts r.push_scope nested))
          rest).save_bindings := hfin
      have hpre2 : ∀ p ∈ pre, p.1 ∉ choices_nested_ids rest :=
        fun p hp hm => hpre p hp (List.mem_append_right _ hm)
      obtain ⟨newN, hnewN, hnewNK⟩ := resolve_stmts_sb nested r.push_scope
      have hbefore2 : ∀ p ∈ (Resolver.pop_scope
          (Resolver.resolve_stmts r.push_scope nested)).save_bindings,
          p.1 ∉ choices_nested_ids rest := by
        intro p hp
        rw [pop_scope_save_bindings, hnewN, push_scope_save_bindings] at hp
        rcases List.mem_append.mp hp with hm | hm
        · exact hdisj (hnewNK p hm)
        · exact fun hmm => hbefore p hm (List.mem_append_right _ hmm)
      exact corr_branches S rest
        (Resolver.pop_scope (Resolver.resolve_stmts r.push_scope nested))
        (u.emit (.Jump 0) span.start) (cR, ts, js) pre h3 hfin2 hpre2 hbefore2
        hnodup2 hs3 hg3
termination_by structural cs

theorem corr_stmts (S : SymbolTable) (l : List Stmt) :
    ∀ (r : Resolver) (c c' : Chunk) (pre : List (NodeId × String)),
    compile_stmts S c l = some c' →
    S.save_bindings = pre ++ (Resolver.resolve_stmts r l).save_bindings →
    (∀ p ∈ pre, p.1 ∉ stmts_ids l) →
    (∀ p ∈ r.save_bindings, p.1 ∉ stmts_ids l) →
    (stmts_ids l).Nodup →
    SavesInv r c → GoodC c →
    SavesInv (Resolver.resolve_stmts r l) c' ∧ GoodC c' := by
  cases l with
  | nil =>
    intro r c c' pre h hfin hpre hbefore hnodup hs hg
    simp only [compile_stmts] at h
    cases h
    exact ⟨hs, hg⟩
  | cons s rest =>
    intro r c c' pre h hfin hpre hbefore hnodup hs hg
    simp only [compile_stmts, Option.bind_eq_bind, Option.bind_eq_some] at h
    obtain ⟨c1, h1, h2⟩ := h
    simp only [stmts_ids] at hpre hbefore hnodup
    obtain ⟨hnodup1, hnodup2, hdisj⟩ := List.nodup_append.mp hnodup
    obtain ⟨newR, hnewR, hnewRK⟩ := resolve_stmts_sb rest (r.resolve_stmt s)
    have hfin1 : S.save_bindings = (pre ++ newR) ++
        (r.resolve_stmt s).save_bindings := by
      have h0 : S.save_bindings = pre ++ (Resolver.resolve_stmts
          (r.resolve_stmt s) rest).save_bindings := hfin
      rw [h0, hnewR, List.append_assoc]
    have hpre1 : ∀ p ∈ pre ++ newR, p.1 ∉ stmt_ids s := by
      intro p hp
      rcases List.mem_append.mp hp with hm | hm
      · exact fun hmm => hpre p hm (List.mem_append_left _ hmm)
      · exact fun hmm => hdisj hmm (hnewRK p hm)
    have hbefore1 : ∀ p ∈ r.save_bindings, p.1 ∉ stmt_ids s :=
      fun p hp hm => hbefore p hp (List.mem_append_left _ hm)
    obtain ⟨hs1, hg1⟩ := corr_stmt S s r c c1 (pre ++ newR) h1 hfin1 hpre1
      hbefore1 hnodup1 hs hg
    have hfin2 : S.save_bindings = pre ++ (Resolver.resolve_stmts
        (r.resolve_stmt s) rest).save_bindings := hfin
    have hpre2 : ∀ p ∈ pre, p.1 ∉ stmts_ids rest :=
      fun p hp hm => hpre p hp (List.mem_append_right _ hm)
    obtain ⟨newS, hnewS, hnewSK⟩ := resolve_stmt_sb s r
    have hbefore2 : ∀ p ∈ (r.resolve_stmt s).save_bindings,
        p.1 ∉ stmts_ids rest := by
      intro p hp
      rw [hnewS] at hp
      rcases List.mem_append.mp hp with hm | hm
      · exact hdisj (hnewSK p hm)
      · exact fun hmm => hbefore p hm (List.mem_append_right _ hmm)
    exact corr_stmts S rest (r.resolve_stmt s) c1 c' pre h2 hfin2 hpre2
      hbefore2 hnodup2 hs1 hg1
termination_by structural l

end

/-- C3 (amended): for every script that resolves and compiles successfully
(with the parser's distinct `NodeId`s), every `GetStorage { name }` in the
chunk is preceded at a smaller instruction index — program order, not
every control-flow path — by an `InitStorage { name }` for the same name.
The claim's every-path form is refuted by `claim_C3_counterexample`. -/
theorem claim_C3 (script : Script) (S : SymbolTable) (ch : Chunk)
    (hids : script.idsNodup)
    (hana : analyze script = .ok S)
    (hcomp : compile script S = some ch) :
    ∀ j name, ch.code.get? j = some (.GetStorage name) →
      ∃ i, i < j ∧ ch.code.get? i = some (.InitStorage name) := by
  have hS : S.save_bindings =
      (Resolver.resolve_stmts Resolver.mk0 script.statements).save_bindings := by
    simp only [analyze] at hana
    split at hana
    · cases hana
      rfl
    · cases hana
  unfold compile at hcomp
  simp only [Option.bind_eq_bind, Option.bind_eq_some] at hcomp
  obtain ⟨cend, hcs, hret⟩ := hcomp
  simp only [Option.pure_def, Option.some.injEq] at hret
  have hsinv : SavesInv Resolver.mk0 Chunk.new := by
    intro nm hnm
    simp [Resolver.mk0, alist_lookup] at hnm
  have hginv : GoodC Chunk.new := by
    intro j nm hj
    simp [Chunk.new] at hj
  obtain ⟨hsend, hgend⟩ := corr_stmts S script.statements Resolver.mk0 Chunk.new
    cend [] hcs (by simpa using hS) (by simp) (by simp [Resolver.mk0]) hids
    hsinv hginv
  have hgch : GoodC ch := by
    subst hret
    exact goodC_append [.Return] rfl (by intro nm hmem; simp at hmem) hgend
  exact hgch

/-- If the dispatch loop yields a choice, the final `ip` rests on a
`ChoiceSet` instruction (the VM backs up onto it before yielding). -/
theorem run_ok_choice_ip (ch : Chunk) (host : Host) : ∀ (fuel : Nat)
    (st : VMState) (store : Storage) (texts : List String) (vm' : VMState)
    (store' : Storage),
    VM.run ch host fuel st store = .ok (.Choice texts) vm' store' →
    ∃ count targets, ch.code.get? vm'.ip = some (.ChoiceSet count targets) := by
  intro fuel
  induction fuel with
  | zero =>
    intro st store texts vm' store' h
    simp only [VM.run] at h
    cases h
  | succ n ih =>
    intro st store texts vm' store' h
    simp only [VM.run] at h
    split at h
    · cases h
    · next instruction hinstr =>
      split at h
      · -- Constant
        split at h
        · cases h
        · exact ih _ _ _ _ _ h
      · -- GetLocal
        split at h
        · cases h
        · exact ih _ _ _ _ _ h
      · -- SetLocal
        split at h
        · cases h
        · split at h
          · exact ih _ _ _ _ _ h
          · cases h
      · -- Concat
        split at h
        · exact ih _ _ _ _ _ h
        · cases h
      · -- Line
        split at h
        · cases h
        · cases h
      · -- ChoiceSet
        rename_i count targets
        split at h
        · cases h
          exact ⟨count, targets, hinstr⟩
        · cases h
      · -- Jump
        exact ih _ _ _ _ _ h
      · -- InitStorage
        split at h
        · cases h
        · exact ih _ _ _ _ _ h
      · -- GetStorage
        split at h
        · exact ih _ _ _ _ _ h
        · cases h
      · -- SetStorage
        split at h
        · cases h
        · exact ih _ _ _ _ _ h
      · -- GetHost
        split at h
        · exact ih _ _ _ _ _ h
        · cases h
      · -- Return
        cases h

/-- Running with `ip` on a `ChoiceSet` can only yield a choice (or run out
of stack / fuel): never a runtime error, and never a line. -/
theorem run_at_choiceset (ch : Chunk) (host : Host) (fuel : Nat) (st : VMState)
    (store : Storage) (count : Nat) (targets : List Nat)
    (hip : ch.code.get? st.ip = some (.ChoiceSet count targets)) :
    (∀ e vm' store', VM.run ch host fuel st store ≠ .err e vm' store') ∧
    (∀ res vm' store', VM.run ch host fuel st store = .ok res vm' store' →
      ∃ texts, res = .Choice texts) := by
  cases fuel with
  | zero =>
    constructor
    · intro e vm' store' h
      simp [VM.run] at h
    · intro res vm' store' h
      simp [VM.run] at h
  | succ n =>
    simp only [VM.run, hip]
    split
    · constructor
      · intro e vm' store' h
        cases h
      · intro res vm' store' h
        cases h
        exact ⟨_, rfl⟩
    · constructor
      · intro e vm' store' h
        cases h
      · intro res vm' store' h
        cases h

/-- The dispatch loop only raises `MissingSaveVariable` or
`MissingExternVariable`: never `NotAtChoice`. -/
theorem run_err_ne_notAtChoice (ch : Chunk) (host : Host) : ∀ (fuel : Nat)
    (st : VMState) (store : Storage) (e : RuntimeError) (vm' : VMState)
    (store' : Storage),
    VM.run ch host fuel st store = .err e vm' store' → e ≠ .NotAtChoice := by
  intro fuel
  induction fuel with
  | zero =>
    intro st store e vm' store' h
    simp only [VM.run] at h
    cases h
  | succ n ih =>
    intro st store e vm' store' h
    simp only [VM.run] at h
    split at h
    · cases h
    · split at h
      · -- Constant
        split at h
        · cases h
        · exact ih _ _ _ _ _ h
      · -- GetLocal
        split at h
        · cases h
        · exact ih _ _ _ _ _ h
      · -- SetLocal
        split at h
        · cases h
        · split at h
          · exact ih _ _ _ _ _ h
          · cases h
      · -- Concat
        split at h
        · exact ih _ _ _ _ _ h
        · cases h
      · -- Line
        split at h
        · cases h
        · cases h
      · -- ChoiceSet
        split at h
        · cases h
        · cases h
      · -- Jump
        exact ih _ _ _ _ _ h
      · -- InitStorage
        split at h
        · cases h
        · exact ih _ _ _ _ _ h
      · -- GetStorage
        split at h
        · exact ih _ _ _ _ _ h
        · cases h
          intro hh
          cases hh
      · -- SetStorage
        split at h
        · cases h
        · exact ih _ _ _ _ _ h
      · -- GetHost
        split at h
        · exact ih _ _ _ _ _ h
        · cases h
          intro hh
          cases hh
      · -- Return
        cases h

/-- Witness for C3 on the S3 scenario: the `GetStorage "gold"` at index 8
of the compiled chunk is preceded by `InitStorage "gold"` (at index 4). -/
theorem claim_C3_witness :
    c3_ast.idsNodup ∧ analyze c3_ast = .ok c3_syms ∧
    compile c3_ast c3_syms = some c3_chunk ∧
    c3_chunk.code.get? 8 = some (.GetStorage "gold") ∧
    ∃ i, i < 8 ∧ c3_chunk.code.get? i = some (.InitStorage "gold") :=
  ⟨by show (stmts_ids c3_ast.statements).Nodup; decide, by rfl, by rfl, by rfl,
    claim_C3 c3_ast c3_syms c3_chunk
      (by show (stmts_ids c3_ast.statements).Nodup; decide) (by rfl) (by rfl)
      8 "gold" (by rfl)⟩

/-- A successful `step_vm` preserves the choice-cache/`ChoiceSet`
invariant: the `Choice` arm re-establishes it via `run_ok_choice_ip`, and
the `Line`/`Done` arms cannot fire while the cache is populated (the run
would have started on the `ChoiceSet` and yielded a choice). -/
theorem step_vm_ok_waitInv (fuel : Nat) (r r' : Runtime) (hw : WaitInv r)
    (h : r.step_vm fuel = .ok r') : WaitInv r' := by
  unfold Runtime.step_vm at h
  split at h
  · rename_i result vm store hrun
    split at h
    · rename_i r2 hh
      cases h
      unfold Runtime.handle_step_result at hh
      split at hh
      · -- Line
        split at hh
        · cases hh
        · cases hh
          intro hsome
          obtain ⟨count, targets, hip⟩ := hw hsome
          obtain ⟨texts, htexts⟩ :=
            (run_at_choiceset r.chunk r.host_state fuel r.vm r.storage count
              targets hip).2 _ _ _ hrun
          cases htexts
      · -- Choice
        cases hh
        intro _
        exact run_ok_choice_ip r.chunk r.host_state fuel r.vm r.storage _ vm
          store hrun
      · -- Done
        cases hh
        intro hsome
        obtain ⟨count, targets, hip⟩ := hw hsome
        obtain ⟨texts, htexts⟩ :=
          (run_at_choiceset r.chunk r.host_state fuel r.vm r.storage count
            targets hip).2 _ _ _ hrun
        cases htexts
    · cases h
  · cases h
  · cases h
  · cases h

/-- A failing `step_vm` also preserves the invariant (in fact it cannot
fail at all while the cache is populated). -/
theorem step_vm_err_waitInv (fuel : Nat) (r r' : Runtime) (e : RuntimeError)
    (hw : WaitInv r) (h : r.step_vm fuel = .err e r') : WaitInv r' := by
  unfold Runtime.step_vm at h
  split at h
  · split at h
    · cases h
    · cases h
  · rename_i e2 vm store hrun
    cases h
    intro hsome
    obtain ⟨count, targets, hip⟩ := hw hsome
    exact absurd hrun
      ((run_at_choiceset r.chunk r.host_state fuel r.vm r.storage count targets
        hip).1 _ _ _)
  · cases h
  · cases h

/-- A successful `select_choice` preserves the choice-cache invariant. -/
theorem select_ok_waitInv (fuel index : Nat) (r r' : Runtime) (hw : WaitInv r)
    (h : r.select_choice fuel index = .ok r') : WaitInv r' := by
  by_cases hsome : r.current_choices.isSome = true
  · obtain ⟨count, targets, hip⟩ := hw hsome
    simp only [Runtime.select_choice, hsome, if_true] at h
    unfold VM.select_and_continue at h
    rw [hip] at h
    dsimp only at h
    by_cases hci : count ≤ index
    · rw [if_pos hci] at h
      cases h
    · rw [if_neg hci] at h
      rcases hti : targets.get? index with _ | t
      · rw [hti] at h
        cases h
      · rw [hti] at h
        split at h
        · rename_i result vm store hrun
          split at h
          · rename_i r2 hh
            cases h
            unfold Runtime.handle_step_result at hh
            split at hh
            · -- Line
              split at hh
              · cases hh
              · cases hh
                intro hsome2
                simp at hsome2
            · -- Choice
              cases hh
              intro _
              exact run_ok_choice_ip r.chunk r.host_state fuel _ r.storage _
                vm store hrun
            · -- Done
              cases hh
              intro hsome2
              simp at hsome2
          · cases h
        · cases h
        · cases h
        · cases h
  · simp only [Runtime.select_choice, if_neg hsome] at h
    cases h
    exact hw

/-- A failing `select_choice` preserves the invariant and never surfaces
`NotAtChoice`: with the cache populated the `ip` rests on a `ChoiceSet`, so
`select_and_continue` takes the `ChoiceSet` arm, whose only errors are
`InvalidChoiceIndex` and the dispatch loop's missing-variable errors. -/
theorem select_err_waitInv (fuel index : Nat) (r r' : Runtime)
    (e : RuntimeError) (hw : WaitInv r)
    (h : r.select_choice fuel index = .err e r') :
    WaitInv r' ∧ e ≠ .NotAtChoice := by
  by_cases hsome : r.current_choices.isSome = true
  · obtain ⟨count, targets, hip⟩ := hw hsome
    simp only [Runtime.select_choice, hsome, if_true] at h
    unfold VM.select_and_continue at h
    rw [hip] at h
    dsimp only at h
    by_cases hci : count ≤ index
    · rw [if_pos hci] at h
      dsimp only at h
      cases h
      constructor
      · intro hsome2
        simp at hsome2
      · intro hh
        cases hh
    · rw [if_neg hci] at h
      rcases hti : targets.get? index with _ | t
      · rw [hti] at h
        cases h
      · rw [hti] at h
        split at h
        · split at h
          · cases h
          · cases h
        · rename_i e2 vm store hrun
          cases h
          constructor
          · intro hsome2
            simp at hsome2
          · exact run_err_ne_notAtChoice r.chunk r.host_state fuel _ _ _ _ _ hrun
        · cases h
        · cases h
  · simp only [Runtime.select_choice, if_neg hsome] at h
    cases h

/-- Every facade state reachable through the public API satisfies the
choice-cache/`ChoiceSet` invariant. -/
theorem reachable_waitInv : ∀ (r : Runtime), Reachable r → WaitInv r := by
  intro r h
  induction h with
  | init script fuel storage host r hnew =>
    unfold Runtime.with_storage_and_host at hnew
    split at hnew
    · cases hnew
    · split at hnew
      · cases hnew
      · cases hnew
      · split at hnew
        · cases hnew
        · split at hnew
          · cases hnew
          · dsimp only at hnew
            split at hnew
            · rename_i r2 hstep
              cases hnew
              refine step_vm_ok_waitInv fuel _ _ ?_ hstep
              intro hsome
              simp at hsome
            · cases hnew
            · cases hnew
  | advance_ok r r2 fuel hr h ih =>
    unfold Runtime.advance at h
    split at h
    · cases h
      exact ih
    · exact step_vm_ok_waitInv fuel r r2 ih h
  | advance_err r r2 fuel e hr h ih =>
    unfold Runtime.advance at h
    split at h
    · cases h
    · exact step_vm_err_waitInv fuel r r2 e ih h
  | select_ok r r2 fuel i hr h ih =>
    exact select_ok_waitInv fuel i r r2 ih h
  | select_err r r2 fuel i e hr h ih =>
    exact (select_err_waitInv fuel i r r2 e ih h).1
  | host_mutation r store hr ih =>
    intro hsome
    exact ih hsome

/-- C10: at the public facade, `select_choice` is a no-op returning `Ok`
with the state unchanged whenever `is_waiting_for_choice()` is `false`;
and on every state reachable through the public API, a `select_choice`
error is never `NotAtChoice` (that error stays internal to the VM's
`select_and_continue`). -/
theorem claim_C10 :
    (∀ (r : Runtime) (fuel i : Nat), r.is_waiting_for_choice = false →
      r.select_choice fuel i = .ok r) ∧
    (∀ (r : Runtime), Reachable r →
      ∀ (fuel i : Nat) (e : RuntimeError) (r' : Runtime),
        r.select_choice fuel i = .err e r' → e ≠ .NotAtChoice) := by
  constructor
  · intro r fuel i hwait
    have hnone : ¬ r.current_choices.isSome = true := by
      simpa [Runtime.is_waiting_for_choice] using hwait
    simp [Runtime.select_choice, if_neg hnone]
  · intro r hreach fuel i e r' herr
    exact (select_err_waitInv fuel i r r' e (reachable_waitInv r hreach) herr).2

/-- Witness for C10: the finished `hello` runtime is not waiting for a
choice, so `select_choice 0` is an `Ok` no-op; and on the reachable C2
runtime (which is waiting), selecting the out-of-range index 5 errs with
`InvalidChoiceIndex`, not `NotAtChoice`. -/
theorem claim_C10_witness :
    (hello_runtime.is_waiting_for_choice = false ∧
      hello_runtime.select_choice 5 0 = .ok hello_runtime) ∧
    ∃ e r', c2_r0.select_choice 200 5 = .err e r' ∧ e ≠ .NotAtChoice :=
  ⟨⟨rfl, claim_C10.1 hello_runtime 5 0 rfl⟩,
    ⟨_, _, rfl,
      claim_C10.2 c2_r0
        (Reachable.init c2_src 200 [] [] c2_r0 c2_construct) 200 5 _ _ rfl⟩⟩

end Bobbin

